import Mathlib

/-!
# fft-raw-to-hz: band-power pipeline of `main.go`

A shallow embedding of the numeric core of `main.go` (`processAllChannels`,
`applyHammingWindow`, `sumPower`, `powerToDb`) together with the properties
stated about it.

Modelling conventions.

* Go `int` values (slice lengths, loop counters, bin numbers) are `Int`.  None of
  the counters can overflow the 64-bit `int`: `i` in `processAllChannels` stays
  below `len(data) - windowSize`, and `i` in `sumPower` stays below `highBin`.
* A slice is a `List`; an index expression `xs[i]` with `i : Int` is `index xs i`,
  which is `none` exactly when Go would raise an index-out-of-range run-time
  error.  Functions that index return `Option`, `none` meaning that error.
* The conversion `int(x)` of a `float64` to the 64-bit `int` is `toInt`: it
  truncates and, for a value outside the range of `int`, gives the smallest `int`
  (the amd64 result; the Go specification leaves it implementation-dependent).
* `float64` values are elements of a linearly ordered field `F` with a floor
  function (exact arithmetic: `ℚ` for evaluation, `ℝ` for the analytic facts), so
  rounding, NaN and overflow of the arithmetic are outside the model.  The only
  infinity the program produces itself, `-math.Inf(1)` in `powerToDb`, is the
  bottom element of `WithBot F`.  Rounding to `float64` is modelled
  (`roundFloat64`) only where it decides a property.
* The functions of the Go libraries that the program calls (`math.Cos`,
  `math.Pi`, `math.Log10`, `cmplx.Abs`, `fft.FFTReal`) are parameters, collected
  in `GoLib`.  Statements about values instantiate them with the functions they
  compute: the real cosine, `π`, the base-10 logarithm, the complex modulus, and
  for `fft.FFTReal` the unnormalised discrete Fourier transform `dft`.
-/

namespace FftRawToHz

/-! ## Data model (`main.go` lines 14-32) -/

/-- One input row: `type EEGData struct { Timestamp float64; EEG [6]float64 }`. -/
structure EEGData (F : Type) where
  Timestamp : F
  EEG : Fin 6 → F

/-- One output row: `type ProcessedEEGData struct`, a timestamp and five arrays
of six decibel values. -/
structure ProcessedEEGData (F : Type) where
  Timestamp : F
  Delta : Fin 6 → WithBot F
  Theta : Fin 6 → WithBot F
  Alpha : Fin 6 → WithBot F
  Beta : Fin 6 → WithBot F
  Gamma : Fin 6 → WithBot F

/-- The library functions used by the program, as parameters of the model. -/
structure GoLib (F C : Type) where
  /-- The function `math.Cos`. -/
  Cos : F → F
  /-- The constant `math.Pi`. -/
  Pi : F
  /-- The function `math.Log10`. -/
  Log10 : F → F
  /-- The function `cmplx.Abs`. -/
  Abs : C → F
  /-- The function `fft.FFTReal` of `github.com/mjibson/go-dsp/fft`. -/
  FFTReal : List F → List C

/-- The constant `windowSize = 256`. -/
def windowSize : Int := 256

/-- The constant `overlap = 128`. -/
def overlap : Int := 128

/-- The constant `sampleRate = 256.0`. -/
def sampleRate {F : Type} [LinearOrderedField F] : F := 256.0

/-- Go index expression `xs[i]`: `none` is the index-out-of-range error. -/
def index {α : Type} (xs : List α) (i : Int) : Option α :=
  if 0 ≤ i then xs[i.toNat]? else none

/-- The smallest value of the 64-bit Go `int` (`math.MinInt64`). -/
def minInt64 : Int := -9223372036854775808

/-- The largest value of the 64-bit Go `int` (`math.MaxInt64`). -/
def maxInt64 : Int := 9223372036854775807

/-- Go conversion `int(x)` of a `float64` to the 64-bit `int`: the fraction is
discarded (truncation towards zero).  For a value that `int` cannot represent
the Go specification leaves the result implementation-dependent; the model
takes the result of the amd64 conversion instruction, the smallest `int`. -/
def toInt {F : Type} [LinearOrderedField F] [FloorRing F] (x : F) : Int :=
  let t : Int := if 0 ≤ x then ⌊x⌋ else ⌈x⌉
  if minInt64 ≤ t ∧ t ≤ maxInt64 then t else minInt64

/-! ## `powerToDb` (lines 127-132) -/

/-- The function `powerToDb`: `-Inf` for a non-positive power, `10 * Log10(power)`
otherwise. -/
def powerToDb {F : Type} [LinearOrderedField F] (Log10 : F → F) (power : F) : WithBot F :=
  if power ≤ 0 then ⊥ else ((10 * Log10 power : F) : WithBot F)

/-! ## `applyHammingWindow` (lines 109-115) -/

/-- The function `applyHammingWindow`: element `i` of the result is
`data[i] * (0.54 - 0.46*Cos(2*Pi*float64(i)/float64(len(data)-1)))`.  For a
one-element vector the divisor is zero; the program only passes vectors of
`windowSize` elements. -/
def applyHammingWindow {F : Type} [LinearOrderedField F] (Cos : F → F) (Pi : F)
    (data : List F) : List F :=
  data.enum.map fun p =>
    p.2 * (0.54 - 0.46 * Cos (2 * Pi * ((p.1 : Int) : F) / (((data.length : Int) - 1 : Int) : F)))

/-! ## `sumPower` (lines 117-125) -/

/-- The bin of a frequency: `int(freq * float64(windowSize) / sampleRate)`
(lines 118 and 119). -/
def freqBin {F : Type} [LinearOrderedField F] [FloorRing F] (freq : F) : Int :=
  toInt (freq * ((windowSize : Int) : F) / sampleRate)

/-- The loop of `sumPower` (lines 121-123), started at counter `i` with the
accumulator `power`. -/
def sumPowerLoop {F C : Type} [LinearOrderedField F] (Abs : C → F) (spectrum : List C)
    (highBin : Int) (i : Int) (power : F) : Option F :=
  if i < highBin ∧ i < (spectrum.length : Int) then
    match index spectrum i with
    | none => none
    | some z => sumPowerLoop Abs spectrum highBin (i + 1) (power + Abs z * Abs z)
  else some power
termination_by (highBin - i).toNat
decreasing_by omega

/-- The function `sumPower`. -/
def sumPower {F C : Type} [LinearOrderedField F] [FloorRing F] (Abs : C → F)
    (spectrum : List C) (lowFreq highFreq : F) : Option F :=
  let lowBin := freqBin lowFreq
  let highBin := freqBin highFreq
  (sumPowerLoop Abs spectrum highBin lowBin 0).map fun power =>
    power / ((windowSize : Int) : F)

/-! ## `processAllChannels` (lines 81-107) -/

/-- Lines 88-91: the `windowSize` samples of one channel starting at row `i`. -/
def channelWindow {F : Type} (data : List (EEGData F)) (i : Int) (channel : Fin 6) :
    Option (List F) :=
  (List.range windowSize.toNat).mapM fun (j : Nat) =>
    (index data (i + (j : Int))).map fun d => d.EEG channel

/-- Lines 88-100: the body of the channel loop, which fills slot `channel` of the
five arrays of `processed`. -/
def processChannel {F C : Type} [LinearOrderedField F] [FloorRing F] (lib : GoLib F C)
    (data : List (EEGData F)) (i : Int) (processed : ProcessedEEGData F) (channel : Fin 6) :
    Option (ProcessedEEGData F) := do
  let channelData ← channelWindow data i channel
  let windowed := applyHammingWindow lib.Cos lib.Pi channelData
  let spectrum := lib.FFTReal windowed
  let delta ← sumPower lib.Abs spectrum 0.5 4
  let theta ← sumPower lib.Abs spectrum 4 8
  let alpha ← sumPower lib.Abs spectrum 8 13
  let beta ← sumPower lib.Abs spectrum 13 30
  let gamma ← sumPower lib.Abs spectrum 30 100
  pure
    { processed with
      Delta := Function.update processed.Delta channel (powerToDb lib.Log10 delta)
      Theta := Function.update processed.Theta channel (powerToDb lib.Log10 theta)
      Alpha := Function.update processed.Alpha channel (powerToDb lib.Log10 alpha)
      Beta := Function.update processed.Beta channel (powerToDb lib.Log10 beta)
      Gamma := Function.update processed.Gamma channel (powerToDb lib.Log10 gamma) }

/-- Lines 85-101: the record of the window that starts at row `i`. -/
def processWindow {F C : Type} [LinearOrderedField F] [FloorRing F] (lib : GoLib F C)
    (data : List (EEGData F)) (i : Int) : Option (ProcessedEEGData F) := do
  let d ← index data i
  let processed : ProcessedEEGData F :=
    { Timestamp := d.Timestamp
      Delta := fun _ => 0
      Theta := fun _ => 0
      Alpha := fun _ => 0
      Beta := fun _ => 0
      Gamma := fun _ => 0 }
  (List.finRange 6).foldlM (processChannel lib data i) processed

/-- The window loop of `processAllChannels` (line 84), started at row `i` with
the records collected so far. -/
def processLoop {F C : Type} [LinearOrderedField F] [FloorRing F] (lib : GoLib F C)
    (data : List (EEGData F)) (i : Int) (processedData : List (ProcessedEEGData F)) :
    Option (List (ProcessedEEGData F)) :=
  if i < (data.length : Int) - windowSize then
    match processWindow lib data i with
    | none => none
    | some processed => processLoop lib data (i + overlap) (processedData ++ [processed])
  else some processedData
termination_by ((data.length : Int) - windowSize - i).toNat
decreasing_by simp only [overlap]; omega

/-- The function `processAllChannels`. -/
def processAllChannels {F C : Type} [LinearOrderedField F] [FloorRing F] (lib : GoLib F C)
    (data : List (EEGData F)) : Option (List (ProcessedEEGData F)) :=
  processLoop lib data 0 []

/-! ## Specification-side helpers -/

/-- Squared magnitude of bin `j`, and zero beyond the end of the spectrum. -/
def binPower {F C : Type} [LinearOrderedField F] (Abs : C → F) (spectrum : List C) (j : Nat) : F :=
  if h : j < spectrum.length then Abs (spectrum.get ⟨j, h⟩) ^ 2 else 0

/-- Bin `i` lies in the range `[lowBin, highBin)` that the loop of `sumPower`
scans for the band `lowFreq`-`highFreq` (before the cut at the spectrum length). -/
def inBand {F : Type} [LinearOrderedField F] [FloorRing F] (lowFreq highFreq : F) (i : Int) :
    Prop :=
  freqBin lowFreq ≤ i ∧ i < freqBin highFreq

/-! ## The 10 Hz test window and the discrete Fourier transform -/

/-- Modelled from the spec: the unnormalised discrete Fourier transform that
`fft.FFTReal` computes (its code is in the library `go-dsp`, not in this
repository): bin `k` of the result is `∑ n, xs[n] * root ^ (k * n)`, where `root N`
is the `N`-th root of unity `exp(-2πi/N)` for `N` the length of the input. -/
def dft {F C : Type} [CommSemiring C] (ofReal : F → C) (root : Nat → C) (xs : List F) : List C :=
  (List.range xs.length).map fun k =>
    ∑ n : Fin xs.length, ofReal (xs.get n) * root xs.length ^ (k * (n : Nat))

/-- Sample `n` of the unit-amplitude 10 Hz sinusoid at 256 Hz:
`sin(2*π*10*n/256)`. -/
def sineSample {F : Type} [LinearOrderedField F] (Sin : F → F) (Pi : F) (n : Nat) : F :=
  Sin (2 * Pi * 10 * (n : F) / 256)

/-- The 256-sample window of the 10 Hz sinusoid. -/
def sineWindow {F : Type} [LinearOrderedField F] (Sin : F → F) (Pi : F) : List F :=
  (List.range 256).map (sineSample Sin Pi)

/-- Sample `n` of the 10 Hz window after the Hamming taper of a 256-sample
window. -/
def windowedSine {F : Type} [LinearOrderedField F] (Sin Cos : F → F) (Pi : F) (n : Nat) : F :=
  sineSample Sin Pi n * (0.54 - 0.46 * Cos (2 * Pi * (n : F) / 255))

/-- The cosine sum `∑ n < 256, cos (n * α)`. -/
def cosSum {F : Type} [LinearOrderedField F] (Cos : F → F) (α : F) : F :=
  ∑ n in Finset.range 256, Cos ((n : F) * α)

/-- Squared magnitude of bin `k` of the discrete Fourier transform of the
sequence `y` of length `N`, written with real cosine and sine sums. -/
def dftPower {F : Type} [LinearOrderedField F] (Sin Cos : F → F) (Pi : F) (N : Nat)
    (y : Nat → F) (k : Nat) : F :=
  (∑ n in Finset.range N, y n * Cos (2 * Pi * (k : F) * (n : F) / (N : F))) ^ 2 +
    (∑ n in Finset.range N, y n * Sin (2 * Pi * (k : F) * (n : F) / (N : F))) ^ 2

/-! ## Rounding to `float64`

The statements about values are made in exact arithmetic.  Where the rounding of
`float64` decides a property (the strictness of the monotonicity of
`powerToDb`), the result of `math.Log10` is rounded to the nearest `float64`. -/

/-- Round to the nearest integer, a tie to the even neighbour. -/
def roundHalfEven {F : Type} [LinearOrderedField F] [FloorRing F] (x : F) : Int :=
  if x - (⌊x⌋ : F) < 1 / 2 then ⌊x⌋
  else if 1 / 2 < x - (⌊x⌋ : F) then ⌊x⌋ + 1
  else if ⌊x⌋ % 2 = 0 then ⌊x⌋ else ⌊x⌋ + 1

/-- The `float64` nearest to `x` (IEEE 754 binary64: a significand of 53 bits,
round to nearest, a tie to the even significand), for `x` in the range of the
normal numbers: with `2^e ≤ |x| < 2^(e+1)` the result is a multiple of
`2^(e-52)`. -/
def roundFloat64 {F : Type} [LinearOrderedField F] [FloorRing F] (x : F) : F :=
  if x = 0 then 0
  else ((roundHalfEven (x / (2 : F) ^ (Int.log 2 |x| - 52)) : Int) : F) *
    (2 : F) ^ (Int.log 2 |x| - 52)

/-- Modelled from the spec: `math.Log10` on `float64` (Go standard library, not
part of this repository), taken as the `float64` nearest to the exact logarithm
`Log10 x`. -/
def float64Log10 {F : Type} [LinearOrderedField F] [FloorRing F] (Log10 : F → F) (x : F) : F :=
  roundFloat64 (Log10 x)

/-! ## Sample inputs

The theorems about `processAllChannels` hold for every library `lib`; the
following small rational instance serves to instantiate them at concrete inputs. -/

/-- A library instance over `ℚ` for concrete instantiations: a spectrum is a
list of rationals, `Abs` is the absolute value and `FFTReal` returns its input. -/
def sampleLib : GoLib ℚ ℚ where
  Cos := fun _ => 1
  Pi := 3
  Log10 := fun x => x
  Abs := fun z => |z|
  FFTReal := fun xs => xs

/-- A series of `n` rows sampled at 256 Hz: row `i` has timestamp `i / 256` and
value `i + channel` on each channel. -/
def rampData (n : Nat) : List (EEGData ℚ) :=
  (List.range n).map fun (i : Nat) =>
    { Timestamp := (i : ℚ) / 256, EEG := fun channel => (i : ℚ) + channel.val }

/-! ## Indexing and the float-to-int conversion -/

theorem index_natCast {α : Type} (xs : List α) (i : Nat) : index xs (i : Int) = xs[i]? := by
  simp [index]

theorem index_neg {α : Type} (xs : List α) (i : Int) (h : i < 0) : index xs i = none := by
  simp [index, not_le.mpr h]

theorem toInt_of_nonneg {F : Type} [LinearOrderedField F] [FloorRing F] (x : F) (h : 0 ≤ x)
    (hlt : x < 9223372036854775808) : toInt x = ⌊x⌋ := by
  have h0 : 0 ≤ ⌊x⌋ := Int.floor_nonneg.mpr h
  have h1 : ⌊x⌋ < 9223372036854775808 := Int.floor_lt.mpr (by push_cast; exact hlt)
  have hrange : minInt64 ≤ ⌊x⌋ ∧ ⌊x⌋ ≤ maxInt64 := by
    simp only [minInt64, maxInt64]
    omega
  simp only [toInt, if_pos h, if_pos hrange]

theorem toInt_nonneg_of_gt {F : Type} [LinearOrderedField F] [FloorRing F] (x : F)
    (hlo : -1 < x) (hlt : x < 9223372036854775808) : 0 ≤ toInt x := by
  by_cases h : 0 ≤ x
  · rw [toInt_of_nonneg x h hlt]
    exact Int.floor_nonneg.mpr h
  · have h1 : (-1 : Int) < ⌈x⌉ := Int.lt_ceil.mpr (by push_cast; exact hlo)
    have h2 : ⌈x⌉ ≤ 0 := Int.ceil_le.mpr (by push_cast; exact le_of_lt (not_le.mp h))
    have hrange : minInt64 ≤ ⌈x⌉ ∧ ⌈x⌉ ≤ maxInt64 := by
      simp only [minInt64, maxInt64]
      omega
    simp only [toInt, if_neg h, if_pos hrange]
    omega

theorem toInt_of_ge {F : Type} [LinearOrderedField F] [FloorRing F] (x : F)
    (h : 9223372036854775808 ≤ x) : toInt x = minInt64 := by
  have h0 : 0 ≤ x := le_trans (by norm_num) h
  have h1 : (9223372036854775808 : Int) ≤ ⌊x⌋ := Int.le_floor.mpr (by push_cast; exact h)
  have hrange : ¬ (minInt64 ≤ ⌊x⌋ ∧ ⌊x⌋ ≤ maxInt64) := by
    simp only [minInt64, maxInt64]
    omega
  simp only [toInt, if_pos h0, if_neg hrange]

theorem freqBin_arg {F : Type} [LinearOrderedField F] (freq : F) :
    freq * ((windowSize : Int) : F) / sampleRate = freq := by
  simp only [windowSize, sampleRate]
  push_cast
  norm_num

theorem freqBin_of_nonneg {F : Type} [LinearOrderedField F] [FloorRing F] (freq : F)
    (h : 0 ≤ freq) (hlt : freq < 9223372036854775808) :
    freqBin freq = ⌊freq * ((windowSize : Int) : F) / sampleRate⌋ ∧ 0 ≤ freqBin freq := by
  rw [freqBin, freqBin_arg, toInt_of_nonneg freq h hlt]
  exact ⟨rfl, Int.floor_nonneg.mpr h⟩

theorem freqBin_nonneg_of_gt {F : Type} [LinearOrderedField F] [FloorRing F] (freq : F)
    (h : -1 < freq) (hlt : freq < 9223372036854775808) : 0 ≤ freqBin freq := by
  rw [freqBin, freqBin_arg]
  exact toInt_nonneg_of_gt freq h hlt

theorem freqBin_of_ge {F : Type} [LinearOrderedField F] [FloorRing F] (freq : F)
    (h : 9223372036854775808 ≤ freq) : freqBin freq = minInt64 := by
  rw [freqBin, freqBin_arg]
  exact toInt_of_ge freq h

/-! ## The loop of `sumPower` -/

theorem sumPowerLoop_natCast {F C : Type} [LinearOrderedField F] (Abs : C → F)
    (spectrum : List C) (highBin : Int) :
    ∀ (n i : Nat) (power : F), min highBin.toNat spectrum.length - i = n →
      sumPowerLoop Abs spectrum highBin (i : Int) power =
        some (power + ∑ j in Finset.Ico i (min highBin.toNat spectrum.length),
          binPower Abs spectrum j) := by
  intro n
  induction n with
  | zero =>
    intro i power h
    have hle : min highBin.toNat spectrum.length ≤ i := by omega
    rw [sumPowerLoop, if_neg (by omega), Finset.Ico_eq_empty (by omega)]
    simp
  | succ n ih =>
    intro i power h
    have hlt : i < min highBin.toNat spectrum.length := by omega
    have hlen : i < spectrum.length := lt_of_lt_of_le hlt (min_le_right _ _)
    have hhb : i < highBin.toNat := lt_of_lt_of_le hlt (min_le_left _ _)
    rw [sumPowerLoop, if_pos (by omega), index_natCast, List.getElem?_eq_getElem hlen]
    have hstep := ih (i + 1) (power + Abs spectrum[i] * Abs spectrum[i]) (by omega)
    simp only [Nat.cast_add, Nat.cast_one] at hstep
    simp only [hstep, Finset.sum_eq_sum_Ico_succ_bot hlt]
    congr 1
    simp [binPower, hlen]
    ring

theorem sum_binPower_Ico {F C : Type} [LinearOrderedField F] (Abs : C → F) (spectrum : List C)
    (lo hi : Int) (hlo : 0 ≤ lo) :
    ∑ j in Finset.Ico lo.toNat (min hi.toNat spectrum.length), binPower Abs spectrum j =
      ∑ i in Finset.univ.filter (fun i : Fin spectrum.length =>
          lo ≤ ((i : Nat) : Int) ∧ ((i : Nat) : Int) < hi),
        Abs (spectrum.get i) ^ 2 := by
  have hfin : ∑ i : Fin spectrum.length,
        (if lo ≤ ((i : Nat) : Int) ∧ ((i : Nat) : Int) < hi then binPower Abs spectrum i else 0) =
      ∑ j in Finset.range spectrum.length,
        (if lo ≤ (j : Int) ∧ (j : Int) < hi then binPower Abs spectrum j else 0) :=
    Fin.sum_univ_eq_sum_range
      (fun j => if lo ≤ (j : Int) ∧ (j : Int) < hi then binPower Abs spectrum j else 0)
      spectrum.length
  have hget : ∀ i : Fin spectrum.length, binPower Abs spectrum i = Abs (spectrum.get i) ^ 2 := by
    intro i
    simp [binPower]
  simp only [hget] at hfin
  rw [Finset.sum_filter, hfin, ← Finset.sum_filter]
  apply Finset.sum_congr _ (fun _ _ => rfl)
  ext j
  simp only [Finset.mem_Ico, Finset.mem_filter, Finset.mem_range]
  omega

theorem sumPower_eq_sum_Ico {F C : Type} [LinearOrderedField F] [FloorRing F] (Abs : C → F)
    (spectrum : List C) (lowFreq highFreq : F) (hlow : 0 ≤ freqBin lowFreq) :
    sumPower Abs spectrum lowFreq highFreq =
      some ((∑ j in Finset.Ico (freqBin lowFreq).toNat
          (min (freqBin highFreq).toNat spectrum.length), binPower Abs spectrum j) /
        ((windowSize : Int) : F)) := by
  have h := sumPowerLoop_natCast Abs spectrum (freqBin highFreq) _ (freqBin lowFreq).toNat 0 rfl
  rw [Int.toNat_of_nonneg hlow] at h
  rw [sumPower]
  simp only [h, Option.map_some', zero_add]

theorem sumPower_of_bins {F C : Type} [LinearOrderedField F] [FloorRing F] (Abs : C → F)
    (spectrum : List C) (lowFreq highFreq : F) (hlow : 0 ≤ freqBin lowFreq) :
    sumPower Abs spectrum lowFreq highFreq =
      some ((∑ i in Finset.univ.filter (fun i : Fin spectrum.length =>
          freqBin lowFreq ≤ ((i : Nat) : Int) ∧ ((i : Nat) : Int) < freqBin highFreq),
        Abs (spectrum.get i) ^ 2) / ((windowSize : Int) : F)) := by
  rw [sumPower_eq_sum_Ico Abs spectrum lowFreq highFreq hlow,
    sum_binPower_Ico Abs spectrum _ _ hlow]

/-! ## C1: `sumPower` is the band sum divided by the window size -/

/-- C1 (amended): for every spectrum (of any length) and all frequencies with
`0 ≤ lowFreq < 2^63` and `0 ≤ highFreq < 2^63` (so that both bins are values of
the 64-bit `int`), `sumPower` returns, without an index error, the sum of
`|spectrum[i]|^2` over the positions `i` of the spectrum with
`lowBin ≤ i < highBin`, divided by `windowSize`, where
`lowBin = ⌊lowFreq * windowSize / sampleRate⌋` and
`highBin = ⌊highFreq * windowSize / sampleRate⌋`; the result is `0` when
`highBin ≤ lowBin` or `len(spectrum) ≤ lowBin`. -/
theorem sumPower_eq_band_sum {F C : Type} [LinearOrderedField F] [FloorRing F] (Abs : C → F)
    (spectrum : List C) (lowFreq highFreq : F) (hlow : 0 ≤ lowFreq)
    (hlowlt : lowFreq < 9223372036854775808) (hhigh : 0 ≤ highFreq)
    (hhighlt : highFreq < 9223372036854775808) :
    sumPower Abs spectrum lowFreq highFreq =
        some ((∑ i in Finset.univ.filter (fun i : Fin spectrum.length =>
            ⌊lowFreq * ((windowSize : Int) : F) / sampleRate⌋ ≤ ((i : Nat) : Int) ∧
              ((i : Nat) : Int) < ⌊highFreq * ((windowSize : Int) : F) / sampleRate⌋),
          Abs (spectrum.get i) ^ 2) / ((windowSize : Int) : F)) ∧
      (⌊highFreq * ((windowSize : Int) : F) / sampleRate⌋ ≤
            ⌊lowFreq * ((windowSize : Int) : F) / sampleRate⌋ ∨
          (spectrum.length : Int) ≤ ⌊lowFreq * ((windowSize : Int) : F) / sampleRate⌋ →
        sumPower Abs spectrum lowFreq highFreq = some 0) := by
  obtain ⟨hl, hl0⟩ := freqBin_of_nonneg lowFreq hlow hlowlt
  obtain ⟨hh, -⟩ := freqBin_of_nonneg highFreq hhigh hhighlt
  have h := sumPower_of_bins Abs spectrum lowFreq highFreq hl0
  rw [hl, hh] at h
  refine ⟨h, fun hempty => ?_⟩
  rw [h, Finset.filter_false_of_mem, Finset.sum_empty, zero_div]
  intro i _
  have := i.isLt
  omega

/-- Witness for C1 on the four-bin spectrum `[3, 4, 5, 6]`: bins `[1, 3)`, a
high bin beyond the end of the spectrum, and an empty range. -/
theorem sumPower_eq_band_sum_witness :
    sumPower (fun x : ℚ => |x|) [3, 4, 5, 6] 1.5 3.25 = some (41 / 256) ∧
      sumPower (fun x : ℚ => |x|) [3, 4, 5, 6] 3.5 100 = some (36 / 256) ∧
      sumPower (fun x : ℚ => |x|) [3, 4, 5, 6] 2 2 = some 0 := by
  have h1 := (sumPower_eq_band_sum (fun x : ℚ => |x|) [3, 4, 5, 6] 1.5 3.25
    (by norm_num) (by norm_num) (by norm_num) (by norm_num)).1
  have h2 := (sumPower_eq_band_sum (fun x : ℚ => |x|) [3, 4, 5, 6] 3.5 100
    (by norm_num) (by norm_num) (by norm_num) (by norm_num)).1
  have h3 := (sumPower_eq_band_sum (fun x : ℚ => |x|) [3, 4, 5, 6] 2 2
    (by norm_num) (by norm_num) (by norm_num) (by norm_num)).2 (Or.inl le_rfl)
  refine ⟨h1.trans ?_, h2.trans ?_, h3⟩
  · simp [windowSize, sampleRate, Finset.sum_filter, Fin.sum_univ_succ]
    norm_num
  · simp [windowSize, sampleRate, Finset.sum_filter, Fin.sum_univ_succ]
    norm_num

/-- Counterexample to C1 as stated ("every pair of non-negative frequencies"):
the frequency `10^30` does not fit the 64-bit `int`, and its bin is the smallest
`int`.  On the one-bin spectrum `[1]`, `sumPower(spectrum, 0, 10^30)` returns `0`
although bin `0` lies in `[⌊0⌋, ⌊10^30⌋)` and the sum of the claim is `1 / 256`;
and `sumPower(spectrum, 10^30, 1)` starts at the smallest `int`, where the first
read of the spectrum is an index error, although the claim gives `0`. -/
theorem sumPower_huge_frequency :
    sumPower (fun x : ℚ => |x|) [1] 0 1000000000000000000000000000000 = some 0 ∧
      (∑ i in Finset.univ.filter (fun i : Fin [(1 : ℚ)].length =>
          ⌊(0 : ℚ) * ((windowSize : Int) : ℚ) / sampleRate⌋ ≤ ((i : Nat) : Int) ∧
            ((i : Nat) : Int) <
              ⌊(1000000000000000000000000000000 : ℚ) * ((windowSize : Int) : ℚ) / sampleRate⌋),
        |[(1 : ℚ)].get i| ^ 2) / ((windowSize : Int) : ℚ) = 1 / 256 ∧
      sumPower (fun x : ℚ => |x|) [1] 1000000000000000000000000000000 1 = none ∧
      ¬ ∀ (spectrum : List ℚ) (lowFreq highFreq : ℚ), 0 ≤ lowFreq → 0 ≤ highFreq →
        sumPower (fun x : ℚ => |x|) spectrum lowFreq highFreq =
          some ((∑ i in Finset.univ.filter (fun i : Fin spectrum.length =>
              ⌊lowFreq * ((windowSize : Int) : ℚ) / sampleRate⌋ ≤ ((i : Nat) : Int) ∧
                ((i : Nat) : Int) < ⌊highFreq * ((windowSize : Int) : ℚ) / sampleRate⌋),
            |spectrum.get i| ^ 2) / ((windowSize : Int) : ℚ)) := by
  have hbig : freqBin (1000000000000000000000000000000 : ℚ) = minInt64 :=
    freqBin_of_ge _ (by norm_num)
  have hzero : freqBin (0 : ℚ) = 0 := by
    rw [(freqBin_of_nonneg (0 : ℚ) le_rfl (by norm_num)).1, freqBin_arg, Int.floor_zero]
  have hone : freqBin (1 : ℚ) = 1 := by
    rw [(freqBin_of_nonneg (1 : ℚ) zero_le_one (by norm_num)).1, freqBin_arg, Int.floor_one]
  have hret : sumPower (fun x : ℚ => |x|) [1] 0 1000000000000000000000000000000 = some 0 := by
    rw [sumPower]
    simp only [hbig, hzero]
    rw [sumPowerLoop, if_neg (by simp [minInt64])]
    simp
  have hnone : sumPower (fun x : ℚ => |x|) [1] 1000000000000000000000000000000 1 = none := by
    rw [sumPower]
    simp only [hbig, hone]
    rw [sumPowerLoop, if_pos (by simp [minInt64]), index_neg _ _ (by simp [minInt64])]
    rfl
  refine ⟨hret, ?_, hnone, fun hall => ?_⟩
  · have hfloor : ⌊(1000000000000000000000000000000 : ℚ) * ((windowSize : Int) : ℚ) / sampleRate⌋ =
        1000000000000000000000000000000 := by
      rw [freqBin_arg]
      exact Int.floor_natCast 1000000000000000000000000000000
    rw [hfloor, freqBin_arg, Int.floor_zero]
    simp [windowSize, Finset.sum_filter]
  · have hsome := hall [1] 1000000000000000000000000000000 1 (by norm_num) (by norm_num)
    rw [hnone] at hsome
    exact Option.noConfusion hsome

/-! ## Lists in the `Option` monad -/

theorem mapM_option_isSome {α β : Type} (f : α → Option β) :
    ∀ l : List α, (∀ a ∈ l, ∃ b, f a = some b) →
      ∃ bs, l.mapM f = some bs ∧ bs.length = l.length := by
  intro l
  induction l with
  | nil => intro _; exact ⟨[], rfl, rfl⟩
  | cons a l ih =>
    intro h
    obtain ⟨b, hb⟩ := h a (List.mem_cons_self a l)
    obtain ⟨bs, hbs, hlen⟩ := ih (fun x hx => h x (List.mem_cons_of_mem a hx))
    refine ⟨b :: bs, ?_, by simp [hlen]⟩
    rw [List.mapM_cons, hb, hbs]
    rfl

theorem foldlM_option_invariant {α β : Type} (f : β → α → Option β) (P : β → Prop)
    (hf : ∀ b a, P b → ∃ b', f b a = some b' ∧ P b') :
    ∀ (l : List α) (b : β), P b → ∃ b', l.foldlM f b = some b' ∧ P b' := by
  intro l
  induction l with
  | nil => intro b hb; exact ⟨b, rfl, hb⟩
  | cons a l ih =>
    intro b hb
    obtain ⟨b', hb', hP⟩ := hf b a hb
    obtain ⟨b'', hb'', hP'⟩ := ih b' hP
    refine ⟨b'', ?_, hP'⟩
    rw [List.foldlM_cons, hb']
    exact hb''

/-! ## One window of `processAllChannels` -/

theorem channelWindow_eq_some {F : Type} (data : List (EEGData F)) (i : Nat) (channel : Fin 6)
    (h : i + 256 ≤ data.length) :
    ∃ channelData, channelWindow data (i : Int) channel = some channelData ∧
      channelData.length = 256 := by
  have hget : ∀ j ∈ List.range windowSize.toNat,
      ∃ x, (index data ((i : Int) + (j : Int))).map (fun d => d.EEG channel) = some x := by
    intro j hj
    have hj' : j < 256 := List.mem_range.mp hj
    have hlt : i + j < data.length := by omega
    have hcast : (i : Int) + (j : Int) = ((i + j : Nat) : Int) := by push_cast; rfl
    rw [hcast, index_natCast, List.getElem?_eq_getElem hlt]
    exact ⟨_, rfl⟩
  obtain ⟨bs, hbs, hlen⟩ := mapM_option_isSome
    (fun j : Nat => (index data ((i : Int) + (j : Int))).map fun d => d.EEG channel)
    (List.range windowSize.toNat) hget
  unfold channelWindow
  refine ⟨bs, hbs, ?_⟩
  rw [hlen, List.length_range]
  rfl

theorem freqBin_bands {F : Type} [LinearOrderedField F] [FloorRing F] :
    freqBin (0.5 : F) = 0 ∧ freqBin (4 : F) = 4 ∧ freqBin (8 : F) = 8 ∧
      freqBin (13 : F) = 13 ∧ freqBin (30 : F) = 30 ∧ freqBin (100 : F) = 100 ∧
      freqBin (0 : F) = 0 := by
  have h : ∀ n : Nat, n ≤ 100 → freqBin (n : F) = n := by
    intro n hn
    have hn' : (n : F) ≤ 100 := by exact_mod_cast hn
    rw [(freqBin_of_nonneg (n : F) (Nat.cast_nonneg n) (by linarith)).1, freqBin_arg]
    exact Int.floor_natCast n
  refine ⟨?_, by simpa using h 4 (by norm_num), by simpa using h 8 (by norm_num),
    by simpa using h 13 (by norm_num), by simpa using h 30 (by norm_num),
    by simpa using h 100 (by norm_num), by simpa using h 0 (by norm_num)⟩
  rw [(freqBin_of_nonneg (0.5 : F) (by norm_num) (by norm_num)).1, freqBin_arg,
    Int.floor_eq_iff]
  norm_num

theorem sumPower_band_eq_some {F C : Type} [LinearOrderedField F] [FloorRing F] (Abs : C → F)
    (spectrum : List C) (lowFreq highFreq : F) (hlow : 0 ≤ freqBin lowFreq) :
    ∃ power, sumPower Abs spectrum lowFreq highFreq = some power :=
  ⟨_, sumPower_of_bins Abs spectrum lowFreq highFreq hlow⟩

theorem processChannel_eq_some {F C : Type} [LinearOrderedField F] [FloorRing F]
    (lib : GoLib F C) (data : List (EEGData F)) (i : Nat) (h : i + 256 ≤ data.length)
    (processed : ProcessedEEGData F) (channel : Fin 6) :
    ∃ next, processChannel lib data (i : Int) processed channel = some next ∧
      next.Timestamp = processed.Timestamp := by
  obtain ⟨channelData, hcd, -⟩ := channelWindow_eq_some data i channel h
  obtain ⟨hb0, hb4, hb8, hb13, hb30, -, -⟩ := freqBin_bands (F := F)
  obtain ⟨delta, hdelta⟩ := sumPower_band_eq_some lib.Abs
    (lib.FFTReal (applyHammingWindow lib.Cos lib.Pi channelData)) 0.5 4 (by rw [hb0])
  obtain ⟨theta, htheta⟩ := sumPower_band_eq_some lib.Abs
    (lib.FFTReal (applyHammingWindow lib.Cos lib.Pi channelData)) 4 8 (by rw [hb4]; decide)
  obtain ⟨alpha, halpha⟩ := sumPower_band_eq_some lib.Abs
    (lib.FFTReal (applyHammingWindow lib.Cos lib.Pi channelData)) 8 13 (by rw [hb8]; decide)
  obtain ⟨beta, hbeta⟩ := sumPower_band_eq_some lib.Abs
    (lib.FFTReal (applyHammingWindow lib.Cos lib.Pi channelData)) 13 30 (by rw [hb13]; decide)
  obtain ⟨gamma, hgamma⟩ := sumPower_band_eq_some lib.Abs
    (lib.FFTReal (applyHammingWindow lib.Cos lib.Pi channelData)) 30 100 (by rw [hb30]; decide)
  simp only [processChannel, hcd, Option.bind_eq_bind, Option.some_bind, hdelta, htheta,
    halpha, hbeta, hgamma]
  exact ⟨_, rfl, rfl⟩

theorem processWindow_eq_some {F C : Type} [LinearOrderedField F] [FloorRing F]
    (lib : GoLib F C) (data : List (EEGData F)) (i : Nat) (h : i + 256 ≤ data.length) :
    ∃ processed d, processWindow lib data (i : Int) = some processed ∧
      data[i]? = some d ∧ processed.Timestamp = d.Timestamp := by
  have hlt : i < data.length := by omega
  obtain ⟨processed, hp, ht⟩ := foldlM_option_invariant (processChannel lib data (i : Int))
    (fun p => p.Timestamp = data[i].Timestamp)
    (fun b a hb => by
      obtain ⟨next, hn, hts⟩ := processChannel_eq_some lib data i h b a
      exact ⟨next, hn, hts.trans hb⟩)
    (List.finRange 6)
    { Timestamp := data[i].Timestamp
      Delta := fun _ => 0
      Theta := fun _ => 0
      Alpha := fun _ => 0
      Beta := fun _ => 0
      Gamma := fun _ => 0 } rfl
  refine ⟨processed, data[i], ?_, List.getElem?_eq_getElem hlt, ht⟩
  rw [processWindow, index_natCast, List.getElem?_eq_getElem hlt]
  exact hp

/-! ## The window loop -/

theorem processLoop_spec {F C : Type} [LinearOrderedField F] [FloorRing F] (lib : GoLib F C)
    (data : List (EEGData F)) :
    ∀ (n i : Nat) (processedData : List (ProcessedEEGData F)),
      (data.length - 256 - i + 127) / 128 = n →
      ∃ records, processLoop lib data (i : Int) processedData = some (processedData ++ records) ∧
        records.length = n ∧
        ∀ k, k < n → ∃ r d, records[k]? = some r ∧ data[i + k * 128]? = some d ∧
          r.Timestamp = d.Timestamp := by
  intro n
  induction n with
  | zero =>
    intro i processedData h
    refine ⟨[], ?_, rfl, fun k hk => absurd hk (Nat.not_lt_zero k)⟩
    rw [processLoop, if_neg (by simp only [windowSize]; omega), List.append_nil]
  | succ n ih =>
    intro i processedData h
    have hlt : i + 256 < data.length := by omega
    obtain ⟨processed, d, hp, hd, ht⟩ := processWindow_eq_some lib data i (le_of_lt hlt)
    obtain ⟨records, hr, hlen, hts⟩ := ih (i + 128) (processedData ++ [processed]) (by omega)
    refine ⟨processed :: records, ?_, by simp [hlen], ?_⟩
    · rw [processLoop, if_pos (by simp only [windowSize]; omega), hp]
      have hcast : (i : Int) + overlap = ((i + 128 : Nat) : Int) := by
        simp only [overlap]; push_cast; rfl
      simp only [hcast, hr, List.append_assoc, List.singleton_append]
    · intro k hk
      cases k with
      | zero => exact ⟨processed, d, by simp, by simpa using hd, ht⟩
      | succ k =>
        obtain ⟨r, d', hrk, hdk, hrd⟩ := hts k (by omega)
        refine ⟨r, d', by simpa using hrk, ?_, hrd⟩
        rw [← hdk]
        congr 1
        ring

theorem ceil_div_overlap (m : Nat) : ⌈((m : ℚ) / 128)⌉₊ = (m + 127) / 128 := by
  apply le_antisymm
  · rw [Nat.ceil_le, div_le_iff₀ (by norm_num)]
    have : m ≤ (m + 127) / 128 * 128 := by omega
    exact_mod_cast this
  · by_contra hlt
    rw [not_le, Nat.lt_iff_add_one_le, Nat.le_div_iff_mul_le (by norm_num)] at hlt
    have h1 : ((⌈((m : ℚ) / 128)⌉₊ : ℕ) : ℚ) * 128 + 1 ≤ m := by
      have : ⌈((m : ℚ) / 128)⌉₊ * 128 + 1 ≤ m := by omega
      exact_mod_cast this
    have h2 : (m : ℚ) / 128 ≤ ⌈((m : ℚ) / 128)⌉₊ := Nat.le_ceil _
    rw [div_le_iff₀ (by norm_num)] at h2
    linarith

/-! ## C2, C3, C7: the window scan of `processAllChannels` -/

/-- C2: for every series of length at most `windowSize` (shorter than a window,
empty, or exactly 256 rows) `processAllChannels` returns the empty sequence of
records. -/
theorem processAllChannels_short {F C : Type} [LinearOrderedField F] [FloorRing F]
    (lib : GoLib F C) (data : List (EEGData F)) (h : (data.length : Int) ≤ windowSize) :
    processAllChannels lib data = some [] := by
  rw [processAllChannels, processLoop, if_neg (by omega)]

/-- Witness for C2: series of 256, 100 and 0 rows. -/
theorem processAllChannels_short_witness :
    processAllChannels sampleLib (rampData 256) = some [] ∧
      processAllChannels sampleLib (rampData 100) = some [] ∧
      processAllChannels sampleLib ([] : List (EEGData ℚ)) = some [] :=
  ⟨processAllChannels_short sampleLib (rampData 256) (by simp [rampData, windowSize]),
    processAllChannels_short sampleLib (rampData 100) (by simp [rampData, windowSize]),
    processAllChannels_short sampleLib [] (by simp [windowSize])⟩

/-- C3: for every series of length `L > windowSize`, `processAllChannels` returns
exactly `⌈(L - windowSize) / overlap⌉` records, the `k`-th of which carries the
timestamp of row `k * overlap`; a series of 384 rows yields exactly one record,
with the timestamp of the first row. -/
theorem processAllChannels_records {F C : Type} [LinearOrderedField F] [FloorRing F]
    (lib : GoLib F C) (data : List (EEGData F)) (h : windowSize < (data.length : Int)) :
    ∃ records, processAllChannels lib data = some records ∧
      records.length =
        ⌈((data.length : ℚ) - ((windowSize : Int) : ℚ)) / ((overlap : Int) : ℚ)⌉₊ ∧
      (∀ k, k < records.length → ∃ r d, records[k]? = some r ∧
        index data ((k : Int) * overlap) = some d ∧ r.Timestamp = d.Timestamp) ∧
      (data.length = 384 → ∃ r d, records = [r] ∧ index data 0 = some d ∧
        r.Timestamp = d.Timestamp) := by
  have hl : 256 < data.length := by simpa [windowSize] using h
  obtain ⟨records, hr, hlen, hts⟩ := processLoop_spec lib data _ 0 [] rfl
  have hts' : ∀ k, k < records.length → ∃ r d, records[k]? = some r ∧
      index data ((k : Int) * overlap) = some d ∧ r.Timestamp = d.Timestamp := by
    intro k hk
    obtain ⟨r, d, h1, h2, h3⟩ := hts k (hlen ▸ hk)
    refine ⟨r, d, h1, ?_, h3⟩
    have hcast : (k : Int) * overlap = ((0 + k * 128 : Nat) : Int) := by
      simp only [overlap]; push_cast; ring
    rw [hcast, index_natCast, h2]
  refine ⟨records, by simpa [processAllChannels] using hr, ?_, hts', ?_⟩
  · rw [hlen]
    have hq : ((data.length : ℚ) - ((windowSize : Int) : ℚ)) / ((overlap : Int) : ℚ) =
        ((data.length - 256 : Nat) : ℚ) / 128 := by
      simp only [windowSize, overlap]
      push_cast [Nat.cast_sub (le_of_lt hl)]
      rfl
    rw [hq, ceil_div_overlap]
    simp
  · intro h384
    have hone : records.length = 1 := by rw [hlen, h384]
    obtain ⟨r, d, h1, h2, h3⟩ := hts' 0 (by omega)
    refine ⟨r, d, ?_, by simpa using h2, h3⟩
    match records, hone, h1 with
    | [x], _, h1 => simpa using h1

/-- Witness for C3: a series of 700 rows yields four records, stamped with the
timestamps of rows 0, 128, 256 and 384, and a series of 384 rows yields one
record, stamped with the timestamp of row 0. -/
theorem processAllChannels_records_witness :
    (∃ records, processAllChannels sampleLib (rampData 700) = some records ∧
      records.length = 4 ∧
      ∀ k, k < records.length → ∃ r d, records[k]? = some r ∧
        index (rampData 700) ((k : Int) * overlap) = some d ∧ r.Timestamp = d.Timestamp) ∧
      ∃ r d, processAllChannels sampleLib (rampData 384) = some [r] ∧
        index (rampData 384) 0 = some d ∧ r.Timestamp = d.Timestamp := by
  constructor
  · obtain ⟨records, h1, h2, h3, -⟩ :=
      processAllChannels_records sampleLib (rampData 700) (by simp [rampData, windowSize])
    refine ⟨records, h1, ?_, h3⟩
    rw [h2, Nat.ceil_eq_iff (by norm_num)]
    simp [rampData, windowSize, overlap]
    norm_num
  · obtain ⟨records, h1, -, -, h4⟩ :=
      processAllChannels_records sampleLib (rampData 384) (by simp [rampData, windowSize])
    obtain ⟨r, d, hr, hd, ht⟩ := h4 (by simp [rampData])
    exact ⟨r, d, hr ▸ h1, hd, ht⟩

/-- C7: for every series, of any length, `processAllChannels` terminates without
an index error: the scan returns a sequence of records; at every window start
`i` it visits, `data[i]` and `data[i+j]` for `0 ≤ j < windowSize` are in bounds
and the window is processed; and `sumPower` reads no position outside the
spectrum for any of the five bands, whatever the length of the spectrum. -/
theorem processAllChannels_never_fails {F C : Type} [LinearOrderedField F] [FloorRing F]
    (lib : GoLib F C) (data : List (EEGData F)) :
    (∃ records, processAllChannels lib data = some records) ∧
      (∀ (i : Nat), (i : Int) < (data.length : Int) - windowSize →
        (∃ d, index data (i : Int) = some d) ∧
        (∀ j : Nat, (j : Int) < windowSize → ∃ d, index data ((i : Int) + (j : Int)) = some d) ∧
        ∃ processed, processWindow lib data (i : Int) = some processed) ∧
      ∀ spectrum : List C,
        (∃ delta, sumPower lib.Abs spectrum 0.5 4 = some delta) ∧
        (∃ theta, sumPower lib.Abs spectrum 4 8 = some theta) ∧
        (∃ alpha, sumPower lib.Abs spectrum 8 13 = some alpha) ∧
        (∃ beta, sumPower lib.Abs spectrum 13 30 = some beta) ∧
        (∃ gamma, sumPower lib.Abs spectrum 30 100 = some gamma) := by
  obtain ⟨hb0, hb4, hb8, hb13, hb30, -, -⟩ := freqBin_bands (F := F)
  refine ⟨?_, ?_, fun spectrum => ⟨?_, ?_, ?_, ?_, ?_⟩⟩
  · obtain ⟨records, hr, -, -⟩ := processLoop_spec lib data _ 0 [] rfl
    exact ⟨records, by simpa [processAllChannels] using hr⟩
  · intro i hi
    have hlt : i + 256 < data.length := by simp only [windowSize] at hi; omega
    refine ⟨?_, ?_, ?_⟩
    · rw [index_natCast]
      exact ⟨_, List.getElem?_eq_getElem (show i < data.length by omega)⟩
    · intro j hj
      have hj' : j < 256 := by simp only [windowSize] at hj; omega
      have hcast : (i : Int) + (j : Int) = ((i + j : Nat) : Int) := by push_cast; rfl
      rw [hcast, index_natCast]
      exact ⟨_, List.getElem?_eq_getElem (show i + j < data.length by omega)⟩
    · obtain ⟨processed, -, hp, -, -⟩ := processWindow_eq_some lib data i (le_of_lt hlt)
      exact ⟨processed, hp⟩
  · exact sumPower_band_eq_some lib.Abs spectrum 0.5 4 (by rw [hb0])
  · exact sumPower_band_eq_some lib.Abs spectrum 4 8 (by rw [hb4]; decide)
  · exact sumPower_band_eq_some lib.Abs spectrum 8 13 (by rw [hb8]; decide)
  · exact sumPower_band_eq_some lib.Abs spectrum 13 30 (by rw [hb13]; decide)
  · exact sumPower_band_eq_some lib.Abs spectrum 30 100 (by rw [hb30]; decide)

/-! ## C8: the all-zero spectrum -/

theorem sumPower_zero_spectrum {F C : Type} [LinearOrderedField F] [FloorRing F] [Zero C]
    (Abs : C → F) (hAbs : Abs 0 = 0) (spectrum : List C) (hz : ∀ z ∈ spectrum, z = 0)
    (lowFreq highFreq : F) (hlow : 0 ≤ freqBin lowFreq) :
    sumPower Abs spectrum lowFreq highFreq = some 0 := by
  rw [sumPower_of_bins Abs spectrum lowFreq highFreq hlow, Finset.sum_eq_zero, zero_div]
  intro i _
  rw [hz _ (List.get_mem spectrum i.val i.isLt), hAbs]
  simp

/-- C8 (amended): for every spectrum, of any length, whose entries are all zero,
`sumPower` returns `0` for each of the five bands, and indeed for every
`lowFreq` with `-1 < lowFreq < 2^63` (so that the low bin is a non-negative value
of the 64-bit `int`) and every `highFreq`. -/
theorem sumPower_zero_spectrum_bands (spectrum : List ℂ) (hz : ∀ z ∈ spectrum, z = 0) :
    sumPower Complex.abs spectrum 0.5 4 = some 0 ∧
      sumPower Complex.abs spectrum 4 8 = some 0 ∧
      sumPower Complex.abs spectrum 8 13 = some 0 ∧
      sumPower Complex.abs spectrum 13 30 = some 0 ∧
      sumPower Complex.abs spectrum 30 100 = some 0 ∧
      ∀ lowFreq highFreq : ℝ, -1 < lowFreq → lowFreq < 9223372036854775808 →
        sumPower Complex.abs spectrum lowFreq highFreq = some 0 := by
  have h : ∀ lowFreq highFreq : ℝ, -1 < lowFreq → lowFreq < 9223372036854775808 →
      sumPower Complex.abs spectrum lowFreq highFreq = some 0 :=
    fun lowFreq highFreq hlow hlt =>
      sumPower_zero_spectrum Complex.abs (map_zero _) spectrum hz lowFreq highFreq
        (freqBin_nonneg_of_gt lowFreq hlow hlt)
  exact ⟨h _ _ (by norm_num) (by norm_num), h _ _ (by norm_num) (by norm_num),
    h _ _ (by norm_num) (by norm_num), h _ _ (by norm_num) (by norm_num),
    h _ _ (by norm_num) (by norm_num), h⟩

/-- Witness for C8: a 256-bin zero spectrum, the alpha band, a band with a
negative low edge above `-1`, and a band whose high edge does not fit `int`. -/
theorem sumPower_zero_spectrum_bands_witness :
    sumPower Complex.abs (List.replicate 256 (0 : ℂ)) 8 13 = some 0 ∧
      sumPower Complex.abs (List.replicate 256 (0 : ℂ)) (-0.5) 300 = some 0 ∧
      sumPower Complex.abs (List.replicate 256 (0 : ℂ)) 0
        1000000000000000000000000000000 = some 0 := by
  have h := sumPower_zero_spectrum_bands (List.replicate 256 (0 : ℂ))
    (fun z hz => List.eq_of_mem_replicate hz)
  exact ⟨h.2.2.1, h.2.2.2.2.2 (-0.5) 300 (by norm_num) (by norm_num),
    h.2.2.2.2.2 0 1000000000000000000000000000000 (by norm_num) (by norm_num)⟩

/-- Counterexample to C8 as stated ("for every lowFreq, highFreq"): on the
one-bin zero spectrum with `lowFreq = -1` and `highFreq = 1` the loop starts at
bin `-1` and the first read `spectrum[-1]` is an index error, so no value is
returned; the same happens with `lowFreq = 10^30`, whose bin is the smallest
`int`. -/
theorem sumPower_zero_spectrum_negative_lowFreq :
    sumPower Complex.abs [(0 : ℂ)] (-1) 1 = none ∧
      sumPower Complex.abs [(0 : ℂ)] 1000000000000000000000000000000 1 = none ∧
      ¬ ∀ (spectrum : List ℂ), (∀ z ∈ spectrum, z = 0) → ∀ lowFreq highFreq : ℝ,
        sumPower Complex.abs spectrum lowFreq highFreq = some 0 := by
  have hlow : freqBin (-1 : ℝ) = -1 := by
    have hceil : ⌈(-1 : ℝ)⌉ = -1 := by
      have hcast : (-1 : ℝ) = ((-1 : Int) : ℝ) := by norm_num
      rw [hcast, Int.ceil_intCast]
    rw [freqBin, freqBin_arg]
    simp only [toInt, if_neg (by norm_num : ¬ (0 : ℝ) ≤ -1), hceil]
    decide
  have hhigh : freqBin (1 : ℝ) = 1 := by
    rw [(freqBin_of_nonneg (1 : ℝ) zero_le_one (by norm_num)).1, freqBin_arg, Int.floor_one]
  have hbig : freqBin (1000000000000000000000000000000 : ℝ) = minInt64 :=
    freqBin_of_ge _ (by norm_num)
  have hnone : sumPower Complex.abs [(0 : ℂ)] (-1) 1 = none := by
    rw [sumPower]
    simp only [hlow, hhigh]
    rw [sumPowerLoop, if_pos (by simp), index_neg _ _ (by decide)]
    rfl
  have hnone2 : sumPower Complex.abs [(0 : ℂ)] 1000000000000000000000000000000 1 = none := by
    rw [sumPower]
    simp only [hbig, hhigh]
    rw [sumPowerLoop, if_pos (by simp [minInt64]), index_neg _ _ (by simp [minInt64])]
    rfl
  refine ⟨hnone, hnone2, fun hall => ?_⟩
  have hsome := hall [0] (by simp) (-1) 1
  rw [hnone] at hsome
  exact Option.noConfusion hsome

/-! ## C10: the five bands partition the bins `0..99` -/

theorem band_sum_split {F : Type} [LinearOrderedField F] {n : Nat} (f : Fin n → F) :
    (∑ i in Finset.univ.filter (fun i : Fin n => (0 : Int) ≤ ((i : Nat) : Int) ∧ ((i : Nat) : Int) < 4), f i) +
      (∑ i in Finset.univ.filter (fun i : Fin n => (4 : Int) ≤ ((i : Nat) : Int) ∧ ((i : Nat) : Int) < 8), f i) +
      (∑ i in Finset.univ.filter (fun i : Fin n => (8 : Int) ≤ ((i : Nat) : Int) ∧ ((i : Nat) : Int) < 13), f i) +
      (∑ i in Finset.univ.filter (fun i : Fin n => (13 : Int) ≤ ((i : Nat) : Int) ∧ ((i : Nat) : Int) < 30), f i) +
      (∑ i in Finset.univ.filter (fun i : Fin n => (30 : Int) ≤ ((i : Nat) : Int) ∧ ((i : Nat) : Int) < 100), f i) =
      ∑ i in Finset.univ.filter (fun i : Fin n => (0 : Int) ≤ ((i : Nat) : Int) ∧ ((i : Nat) : Int) < 100), f i := by
  simp only [Finset.sum_filter, ← Finset.sum_add_distrib]
  apply Finset.sum_congr rfl
  intro i _
  split_ifs <;> first | omega | simp

/-- C10: with `windowSize = 256` and `sampleRate = 256.0` the five band calls scan
the bin ranges `[0,4)`, `[4,8)`, `[8,13)`, `[13,30)` and `[30,100)`: the ranges
cover exactly the bins `0..99`, are pairwise disjoint, bin `0` belongs to the
delta band (its lower edge `0.5` truncates to `0`), and for every spectrum the
five band powers add up to `sumPower(spectrum, 0, 100)`. -/
theorem band_bins_partition {F C : Type} [LinearOrderedField F] [FloorRing F] (Abs : C → F)
    (spectrum : List C) :
    (freqBin (0.5 : F) = 0 ∧ freqBin (4 : F) = 4 ∧ freqBin (8 : F) = 8 ∧
      freqBin (13 : F) = 13 ∧ freqBin (30 : F) = 30 ∧ freqBin (100 : F) = 100) ∧
    (∀ i : Int, (0 ≤ i ∧ i < 100) ↔
      (inBand (0.5 : F) 4 i ∨ inBand (4 : F) 8 i ∨ inBand (8 : F) 13 i ∨
        inBand (13 : F) 30 i ∨ inBand (30 : F) 100 i)) ∧
    (∀ i : Int,
      ¬ (inBand (0.5 : F) 4 i ∧ inBand (4 : F) 8 i) ∧
      ¬ (inBand (0.5 : F) 4 i ∧ inBand (8 : F) 13 i) ∧
      ¬ (inBand (0.5 : F) 4 i ∧ inBand (13 : F) 30 i) ∧
      ¬ (inBand (0.5 : F) 4 i ∧ inBand (30 : F) 100 i) ∧
      ¬ (inBand (4 : F) 8 i ∧ inBand (8 : F) 13 i) ∧
      ¬ (inBand (4 : F) 8 i ∧ inBand (13 : F) 30 i) ∧
      ¬ (inBand (4 : F) 8 i ∧ inBand (30 : F) 100 i) ∧
      ¬ (inBand (8 : F) 13 i ∧ inBand (13 : F) 30 i) ∧
      ¬ (inBand (8 : F) 13 i ∧ inBand (30 : F) 100 i) ∧
      ¬ (inBand (13 : F) 30 i ∧ inBand (30 : F) 100 i)) ∧
    inBand (0.5 : F) 4 0 ∧
    ∃ delta theta alpha beta gamma total,
      sumPower Abs spectrum 0.5 4 = some delta ∧
      sumPower Abs spectrum 4 8 = some theta ∧
      sumPower Abs spectrum 8 13 = some alpha ∧
      sumPower Abs spectrum 13 30 = some beta ∧
      sumPower Abs spectrum 30 100 = some gamma ∧
      sumPower Abs spectrum 0 100 = some total ∧
      delta + theta + alpha + beta + gamma = total := by
  obtain ⟨hb0, hb4, hb8, hb13, hb30, hb100, hbz⟩ := freqBin_bands (F := F)
  refine ⟨⟨hb0, hb4, hb8, hb13, hb30, hb100⟩, ?_, ?_, ?_, ?_⟩
  · intro i
    simp only [inBand, hb0, hb4, hb8, hb13, hb30, hb100]
    omega
  · intro i
    simp only [inBand, hb0, hb4, hb8, hb13, hb30, hb100]
    omega
  · simp only [inBand, hb0, hb4]
    omega
  · refine ⟨_, _, _, _, _, _,
      sumPower_of_bins Abs spectrum 0.5 4 (by rw [hb0]),
      sumPower_of_bins Abs spectrum 4 8 (by rw [hb4]; decide),
      sumPower_of_bins Abs spectrum 8 13 (by rw [hb8]; decide),
      sumPower_of_bins Abs spectrum 13 30 (by rw [hb13]; decide),
      sumPower_of_bins Abs spectrum 30 100 (by rw [hb30]; decide),
      sumPower_of_bins Abs spectrum 0 100 (by rw [hbz]), ?_⟩
    simp only [hb0, hb4, hb8, hb13, hb30, hb100, hbz]
    rw [← band_sum_split]
    ring

/-! ## C4: `powerToDb` -/

theorem powerToDb_of_pos {F : Type} [LinearOrderedField F] (Log10 : F → F) (p : F) (h : 0 < p) :
    powerToDb Log10 p = ((10 * Log10 p : F) : WithBot F) := by
  rw [powerToDb, if_neg (not_le.mpr h)]

theorem powerToDb_of_nonpos {F : Type} [LinearOrderedField F] (Log10 : F → F) (p : F)
    (h : p ≤ 0) : powerToDb Log10 p = ⊥ := by
  rw [powerToDb, if_pos h]

theorem powerToDb_lt_of_lt (p q : ℝ) (hq : 0 < q) (hpq : p < q) :
    powerToDb (Real.logb 10) p < powerToDb (Real.logb 10) q := by
  rw [powerToDb_of_pos _ q hq]
  by_cases hp : p ≤ 0
  · rw [powerToDb_of_nonpos _ p hp]
    exact WithBot.bot_lt_coe _
  · have hp' : 0 < p := not_le.mp hp
    rw [powerToDb_of_pos _ p hp', WithBot.coe_lt_coe]
    have := Real.logb_lt_logb (by norm_num : (1 : ℝ) < 10) hp' hpq
    linarith

/-- C4: with `math.Log10` the base-10 logarithm, `powerToDb(p)` is
`10 * log10(p)` for every `p > 0` and negative infinity for every `p ≤ 0` (the
function is total, there is no error case); in particular `powerToDb(0)` is
negative infinity, `powerToDb(1) = 0` and `powerToDb(10) = 10`. -/
theorem powerToDb_values :
    (∀ p : ℝ, 0 < p → powerToDb (Real.logb 10) p = ((10 * Real.logb 10 p : ℝ) : WithBot ℝ)) ∧
      (∀ p : ℝ, p ≤ 0 → powerToDb (Real.logb 10) p = ⊥) ∧
      powerToDb (Real.logb 10) 0 = ⊥ ∧
      powerToDb (Real.logb 10) 1 = ((0 : ℝ) : WithBot ℝ) ∧
      powerToDb (Real.logb 10) 10 = ((10 : ℝ) : WithBot ℝ) := by
  refine ⟨fun p hp => powerToDb_of_pos _ p hp, fun p hp => powerToDb_of_nonpos _ p hp,
    powerToDb_of_nonpos _ 0 le_rfl, ?_, ?_⟩
  · rw [powerToDb_of_pos _ 1 one_pos, Real.logb_one, mul_zero]
  · rw [powerToDb_of_pos _ 10 (by norm_num), Real.logb_self_eq_one (by norm_num), mul_one]

/-! ## C5: `powerToDb` is non-decreasing, and not strictly increasing on `float64` -/

theorem floor_le_roundHalfEven {F : Type} [LinearOrderedField F] [FloorRing F] (x : F) :
    ⌊x⌋ ≤ roundHalfEven x ∧ roundHalfEven x ≤ ⌊x⌋ + 1 := by
  unfold roundHalfEven
  split_ifs <;> constructor <;> omega

theorem roundHalfEven_mono {F : Type} [LinearOrderedField F] [FloorRing F] (x y : F)
    (h : x ≤ y) : roundHalfEven x ≤ roundHalfEven y := by
  have hfl : ⌊x⌋ ≤ ⌊y⌋ := Int.floor_mono h
  rcases lt_or_eq_of_le hfl with hlt | heq
  · have h1 := (floor_le_roundHalfEven x).2
    have h2 := (floor_le_roundHalfEven y).1
    omega
  · unfold roundHalfEven
    rw [← heq]
    split_ifs <;> first | omega | (exfalso; linarith)

theorem le_roundHalfEven {F : Type} [LinearOrderedField F] [FloorRing F] (n : Int) (x : F)
    (h : (n : F) ≤ x) : n ≤ roundHalfEven x := by
  have h1 : n ≤ ⌊x⌋ := Int.le_floor.mpr h
  have h2 := (floor_le_roundHalfEven x).1
  omega

theorem roundHalfEven_le {F : Type} [LinearOrderedField F] [FloorRing F] (n : Int) (x : F)
    (h : x ≤ (n : F)) : roundHalfEven x ≤ n := by
  rcases lt_or_eq_of_le h with hlt | heq
  · have h1 : ⌊x⌋ < n := Int.floor_lt.mpr hlt
    have h2 := (floor_le_roundHalfEven x).2
    omega
  · subst heq
    unfold roundHalfEven
    simp

theorem roundHalfEven_of_near {F : Type} [LinearOrderedField F] [FloorRing F] (m : Int) (x : F)
    (h : |x - (m : F)| < 1 / 2) : roundHalfEven x = m := by
  obtain ⟨h1, h2⟩ := abs_lt.mp h
  by_cases hx : (m : F) ≤ x
  · have hfl : ⌊x⌋ = m := Int.floor_eq_iff.mpr ⟨hx, by linarith⟩
    unfold roundHalfEven
    rw [hfl, if_pos (by linarith)]
  · have hfl : ⌊x⌋ = m - 1 := Int.floor_eq_iff.mpr ⟨by push_cast; linarith, by push_cast; linarith⟩
    unfold roundHalfEven
    rw [hfl, if_neg (by push_cast; linarith), if_pos (by push_cast; linarith)]
    omega

theorem two_zpow_pos {F : Type} [LinearOrderedField F] (e : Int) : (0 : F) < (2 : F) ^ e :=
  zpow_pos (by norm_num) e

theorem two_zpow_le {F : Type} [LinearOrderedField F] (a b : Int) (h : a ≤ b) :
    (2 : F) ^ a ≤ (2 : F) ^ b :=
  zpow_le_zpow_right₀ (by norm_num) h

theorem binade_of_pos {F : Type} [LinearOrderedField F] [FloorRing F] (x : F) (hx : 0 < x) :
    (2 : F) ^ Int.log 2 x ≤ x ∧ x < (2 : F) ^ (Int.log 2 x + 1) := by
  have h1 := Int.zpow_log_le_self (b := 2) (by norm_num) hx
  have h2 := Int.lt_zpow_succ_log_self (b := 2) (by norm_num) x
  simp only [Nat.cast_ofNat] at h1 h2
  exact ⟨h1, h2⟩

theorem log_two_eq {F : Type} [LinearOrderedField F] [FloorRing F] (x : F) (e : Int)
    (hlo : (2 : F) ^ e ≤ x) (hhi : x < (2 : F) ^ (e + 1)) : Int.log 2 x = e := by
  have hx : 0 < x := lt_of_lt_of_le (two_zpow_pos e) hlo
  have h1 : e ≤ Int.log 2 x :=
    (Int.zpow_le_iff_le_log (b := 2) (by norm_num) hx).mp (by simpa using hlo)
  have h2 : Int.log 2 x < e + 1 :=
    (Int.lt_zpow_iff_log_lt (b := 2) (by norm_num) hx).mp (by simpa using hhi)
  omega

theorem two_zpow_split {F : Type} [LinearOrderedField F] (e : Int) :
    (2 : F) ^ e = ((2 ^ 52 : Int) : F) * (2 : F) ^ (e - 52) ∧
      (2 : F) ^ (e + 1) = ((2 ^ 53 : Int) : F) * (2 : F) ^ (e - 52) := by
  have h2 : (2 : F) ≠ 0 := by norm_num
  constructor
  · have : e = 52 + (e - 52) := by ring
    conv_lhs => rw [this, zpow_add₀ h2]
    norm_num
  · have : e + 1 = 53 + (e - 52) := by ring
    conv_lhs => rw [this, zpow_add₀ h2]
    norm_num

theorem roundFloat64_pos_bounds {F : Type} [LinearOrderedField F] [FloorRing F] (x : F)
    (hx : 0 < x) :
    (2 : F) ^ Int.log 2 x ≤ roundFloat64 x ∧ roundFloat64 x ≤ (2 : F) ^ (Int.log 2 x + 1) := by
  obtain ⟨hlo, hhi⟩ := binade_of_pos x hx
  obtain ⟨s1, s2⟩ := two_zpow_split (F := F) (Int.log 2 x)
  have hu := two_zpow_pos (F := F) (Int.log 2 x - 52)
  rw [roundFloat64, if_neg hx.ne', abs_of_pos hx]
  rw [s1] at hlo
  rw [s2] at hhi
  constructor
  · rw [s1]
    apply mul_le_mul_of_nonneg_right _ hu.le
    have := le_roundHalfEven (2 ^ 52) (x / (2 : F) ^ (Int.log 2 x - 52))
      ((le_div_iff₀ hu).mpr hlo)
    exact_mod_cast this
  · rw [s2]
    apply mul_le_mul_of_nonneg_right _ hu.le
    have := roundHalfEven_le (2 ^ 53) (x / (2 : F) ^ (Int.log 2 x - 52))
      ((div_le_iff₀ hu).mpr hhi.le)
    exact_mod_cast this

theorem roundFloat64_neg_bounds {F : Type} [LinearOrderedField F] [FloorRing F] (x : F)
    (hx : x < 0) :
    -(2 : F) ^ (Int.log 2 |x| + 1) ≤ roundFloat64 x ∧
      roundFloat64 x ≤ -(2 : F) ^ Int.log 2 |x| := by
  have hax : 0 < |x| := abs_pos.mpr hx.ne
  obtain ⟨hlo, hhi⟩ := binade_of_pos |x| hax
  obtain ⟨s1, s2⟩ := two_zpow_split (F := F) (Int.log 2 |x|)
  have hu := two_zpow_pos (F := F) (Int.log 2 |x| - 52)
  have hxa : |x| = -x := abs_of_neg hx
  rw [roundFloat64, if_neg hx.ne]
  rw [s1] at hlo
  rw [s2] at hhi
  constructor
  · rw [s2, ← neg_mul]
    apply mul_le_mul_of_nonneg_right _ hu.le
    have := le_roundHalfEven (-(2 ^ 53)) (x / (2 : F) ^ (Int.log 2 |x| - 52))
      ((le_div_iff₀ hu).mpr (by push_cast at hhi ⊢; linarith))
    exact_mod_cast this
  · rw [s1, ← neg_mul]
    apply mul_le_mul_of_nonneg_right _ hu.le
    have := roundHalfEven_le (-(2 ^ 52)) (x / (2 : F) ^ (Int.log 2 |x| - 52))
      ((div_le_iff₀ hu).mpr (by push_cast at hlo ⊢; linarith))
    exact_mod_cast this

theorem roundFloat64_mono {F : Type} [LinearOrderedField F] [FloorRing F] (x y : F)
    (h : x ≤ y) : roundFloat64 x ≤ roundFloat64 y := by
  have hnonneg : ∀ z : F, 0 ≤ z → 0 ≤ roundFloat64 z := by
    intro z hz
    rcases lt_or_eq_of_le hz with hpos | hzero
    · exact le_trans (two_zpow_pos _).le (roundFloat64_pos_bounds z hpos).1
    · rw [← hzero, roundFloat64, if_pos rfl]
  have hnonpos : ∀ z : F, z ≤ 0 → roundFloat64 z ≤ 0 := by
    intro z hz
    rcases lt_or_eq_of_le hz with hneg | hzero
    · exact le_trans (roundFloat64_neg_bounds z hneg).2 (neg_nonpos.mpr (two_zpow_pos _).le)
    · rw [hzero, roundFloat64, if_pos rfl]
  rcases lt_trichotomy 0 x with hx | hx | hx
  · have hy : 0 < y := lt_of_lt_of_le hx h
    have hlog : Int.log 2 x ≤ Int.log 2 y := Int.log_mono_right hx h
    rcases lt_or_eq_of_le hlog with hlt | heq
    · exact le_trans (roundFloat64_pos_bounds x hx).2
        (le_trans (two_zpow_le _ _ (by omega)) (roundFloat64_pos_bounds y hy).1)
    · have hu := two_zpow_pos (F := F) (Int.log 2 y - 52)
      rw [roundFloat64, if_neg hx.ne', roundFloat64, if_neg hy.ne', abs_of_pos hx,
        abs_of_pos hy, heq]
      apply mul_le_mul_of_nonneg_right _ hu.le
      exact_mod_cast roundHalfEven_mono _ _ (div_le_div_of_nonneg_right h hu.le)
  · exact le_trans (hnonpos x hx.symm.le) (hnonneg y (hx ▸ h))
  · rcases le_or_lt 0 y with hy | hy
    · exact le_trans (hnonpos x hx.le) (hnonneg y hy)
    · have habs : |y| ≤ |x| := by rw [abs_of_neg hx, abs_of_neg hy]; linarith
      have hlog : Int.log 2 |y| ≤ Int.log 2 |x| := Int.log_mono_right (abs_pos.mpr hy.ne) habs
      rcases lt_or_eq_of_le hlog with hlt | heq
      · exact le_trans (roundFloat64_neg_bounds x hx).2
          (le_trans (neg_le_neg (two_zpow_le _ _ (by omega))) (roundFloat64_neg_bounds y hy).1)
      · have hu := two_zpow_pos (F := F) (Int.log 2 |x| - 52)
        rw [roundFloat64, if_neg hx.ne, roundFloat64, if_neg hy.ne, heq]
        apply mul_le_mul_of_nonneg_right _ hu.le
        exact_mod_cast roundHalfEven_mono _ _ (div_le_div_of_nonneg_right h hu.le)

theorem roundFloat64_of_near {F : Type} [LinearOrderedField F] [FloorRing F] (x : F) (e m : Int)
    (hlo : (2 : F) ^ e ≤ x) (hhi : x < (2 : F) ^ (e + 1))
    (hnear : |x - (m : F) * (2 : F) ^ (e - 52)| < (2 : F) ^ (e - 52) / 2) :
    roundFloat64 x = (m : F) * (2 : F) ^ (e - 52) := by
  have hx : 0 < x := lt_of_lt_of_le (two_zpow_pos e) hlo
  have hu := two_zpow_pos (F := F) (e - 52)
  rw [roundFloat64, if_neg hx.ne', abs_of_pos hx, log_two_eq x e hlo hhi]
  congr 2
  apply roundHalfEven_of_near
  have hdiv : x / (2 : F) ^ (e - 52) - (m : F) =
      (x - (m : F) * (2 : F) ^ (e - 52)) / (2 : F) ^ (e - 52) := by
    field_simp
    ring
  rw [hdiv, abs_div, abs_of_pos hu, div_lt_iff₀ hu]
  linarith

theorem float64Log10_mono (a b : ℝ) (ha : 0 < a) (hab : a ≤ b) :
    float64Log10 (Real.logb 10) a ≤ float64Log10 (Real.logb 10) b :=
  roundFloat64_mono _ _ (Real.logb_le_logb_of_le (by norm_num) ha hab)

theorem roundFloat64_ten : roundFloat64 (10 : ℝ) = 10 := by
  have h := roundFloat64_of_near (10 : ℝ) 3 5629499534213120 (by norm_num) (by norm_num)
    (by norm_num)
  rw [h]
  norm_num

theorem logb_ten_pow_ten : Real.logb 10 (10000000000 : ℝ) = 10 := by
  have h : (10000000000 : ℝ) = (10 : ℝ) ^ (10 : Nat) := by norm_num
  rw [h, Real.logb_pow, Real.logb_self_eq_one (by norm_num)]
  norm_num

theorem logb_next_double :
    10 ≤ Real.logb 10 (10000000000 + 1 / 524288 : ℝ) ∧
      Real.logb 10 (10000000000 + 1 / 524288 : ℝ) < 10 + 1 / 1125899906842624 := by
  constructor
  · have h := Real.logb_le_logb_of_le (by norm_num : (1 : ℝ) < 10)
      (by norm_num : (0 : ℝ) < 10000000000)
      (by norm_num : (10000000000 : ℝ) ≤ 10000000000 + 1 / 524288)
    rw [logb_ten_pow_ten] at h
    exact h
  · have hsplit : (10000000000 + 1 / 524288 : ℝ) =
        10000000000 * (1 + 1 / 5242880000000000) := by norm_num
    have hlog10 : 1 ≤ Real.log 10 := by
      rw [Real.le_log_iff_exp_le (by norm_num)]
      exact le_trans Real.exp_one_lt_d9.le (by norm_num)
    have hlog : Real.log (1 + 1 / 5242880000000000 : ℝ) ≤ 1 / 5242880000000000 := by
      have := Real.log_le_sub_one_of_pos (by norm_num : (0 : ℝ) < 1 + 1 / 5242880000000000)
      linarith
    have hsmall : Real.logb 10 (1 + 1 / 5242880000000000 : ℝ) ≤ 1 / 5242880000000000 := by
      rw [Real.logb, div_le_iff₀ (by linarith)]
      nlinarith
    rw [hsplit, Real.logb_mul (by norm_num) (by norm_num), logb_ten_pow_ten]
    have : (1 : ℝ) / 5242880000000000 < 1 / 1125899906842624 := by norm_num
    linarith

theorem float64Log10_adjacent :
    float64Log10 (Real.logb 10) 10000000000 = 10 ∧
      float64Log10 (Real.logb 10) (10000000000 + 1 / 524288) = 10 := by
  constructor
  · rw [float64Log10, logb_ten_pow_ten, roundFloat64_ten]
  · obtain ⟨hlo, hhi⟩ := logb_next_double
    have h := roundFloat64_of_near (Real.logb 10 (10000000000 + 1 / 524288 : ℝ)) 3
      5629499534213120 (by norm_num; linarith) (by norm_num; linarith)
      (by
        rw [abs_lt]
        norm_num
        constructor <;> linarith)
    rw [float64Log10, h]
    norm_num

/-- C5 (amended): `powerToDb` is monotonic non-decreasing on positive inputs
whenever `math.Log10` is non-decreasing on them (as the exact logarithm and its
rounding to `float64` are): `0 < p ≤ q` implies `powerToDb(p) ≤ powerToDb(q)`. -/
theorem powerToDb_monotone {F : Type} [LinearOrderedField F] (Log10 : F → F)
    (hmono : ∀ a b : F, 0 < a → a ≤ b → Log10 a ≤ Log10 b) (p q : F) (hp : 0 < p)
    (hpq : p ≤ q) : powerToDb Log10 p ≤ powerToDb Log10 q := by
  rw [powerToDb_of_pos _ p hp, powerToDb_of_pos _ q (lt_of_lt_of_le hp hpq), WithBot.coe_le_coe]
  have := hmono p q hp hpq
  linarith

/-- Witness for C5: the two adjacent doubles `10^10` and `10^10 + 2^-19` with the
rounded logarithm, and `1`, `10` with the exact logarithm. -/
theorem powerToDb_monotone_witness :
    powerToDb (float64Log10 (Real.logb 10)) 10000000000 ≤
        powerToDb (float64Log10 (Real.logb 10)) (10000000000 + 1 / 524288) ∧
      powerToDb (Real.logb 10) 1 ≤ powerToDb (Real.logb 10) 10 :=
  ⟨powerToDb_monotone (float64Log10 (Real.logb 10)) float64Log10_mono 10000000000
      (10000000000 + 1 / 524288) (by norm_num) (by norm_num),
    powerToDb_monotone (Real.logb 10)
      (fun a b ha hab => Real.logb_le_logb_of_le (by norm_num) ha hab) 1 10 (by norm_num)
      (by norm_num)⟩

/-- Counterexample to C5 as stated (strict increase): `10^10` and
`10^10 + 2^-19` are adjacent `float64` values (each is its own rounding), their
exact logarithms `10` and `10 + 8.3e-17` both round to the `float64` `10`, so
`powerToDb` returns `100` for both and is not strictly increasing. -/
theorem powerToDb_adjacent_doubles :
    roundFloat64 (10000000000 : ℝ) = 10000000000 ∧
      roundFloat64 (10000000000 + 1 / 524288 : ℝ) = 10000000000 + 1 / 524288 ∧
      (0 : ℝ) < 10000000000 ∧ (10000000000 : ℝ) < 10000000000 + 1 / 524288 ∧
      powerToDb (float64Log10 (Real.logb 10)) 10000000000 = ((100 : ℝ) : WithBot ℝ) ∧
      powerToDb (float64Log10 (Real.logb 10)) (10000000000 + 1 / 524288) =
        ((100 : ℝ) : WithBot ℝ) ∧
      ¬ ∀ p q : ℝ, 0 < p → p < q →
        powerToDb (float64Log10 (Real.logb 10)) p < powerToDb (float64Log10 (Real.logb 10)) q := by
  have h1 : powerToDb (float64Log10 (Real.logb 10)) 10000000000 = ((100 : ℝ) : WithBot ℝ) := by
    rw [powerToDb_of_pos _ _ (by norm_num), float64Log10_adjacent.1]
    norm_num
  have h2 : powerToDb (float64Log10 (Real.logb 10)) (10000000000 + 1 / 524288) =
      ((100 : ℝ) : WithBot ℝ) := by
    rw [powerToDb_of_pos _ _ (by norm_num), float64Log10_adjacent.2]
    norm_num
  refine ⟨?_, ?_, by norm_num, by norm_num, h1, h2, fun hall => ?_⟩
  · have h := roundFloat64_of_near (10000000000 : ℝ) 33 5242880000000000 (by norm_num)
      (by norm_num) (by norm_num)
    rw [h]
    norm_num
  · have h := roundFloat64_of_near (10000000000 + 1 / 524288 : ℝ) 33 5242880000000001
      (by norm_num) (by norm_num) (by norm_num)
    rw [h]
    norm_num
  · have hlt := hall 10000000000 (10000000000 + 1 / 524288) (by norm_num) (by norm_num)
    rw [h1, h2] at hlt
    exact lt_irrefl _ hlt

/-! ## C6: `applyHammingWindow` -/

theorem applyHammingWindow_length {F : Type} [LinearOrderedField F] (Cos : F → F) (Pi : F)
    (data : List F) : (applyHammingWindow Cos Pi data).length = data.length := by
  simp [applyHammingWindow]

theorem applyHammingWindow_getElem_opt {F : Type} [LinearOrderedField F] (Cos : F → F) (Pi : F)
    (data : List F) (i : Nat) :
    (applyHammingWindow Cos Pi data)[i]? = data[i]?.map fun x =>
      x * (0.54 - 0.46 * Cos (2 * Pi * ((i : Int) : F) / (((data.length : Int) - 1 : Int) : F))) := by
  simp only [applyHammingWindow, List.getElem?_map, List.getElem?_enum, Option.map_map]
  rfl

/-- C6: with `math.Cos` the cosine and `math.Pi` the number `π`, for every sample
vector of length `N ≥ 2` the result of `applyHammingWindow` has length `N` and
its element `i` is `sample[i] * (0.54 - 0.46*cos(2*π*i/(N-1)))`; hence the elements
`0` and `N-1` are the input elements scaled by `0.08`, and for odd `N` the
midpoint element `(N-1)/2` is the input element scaled by `1.0`. -/
theorem applyHammingWindow_spec (data : List ℝ) (hN : 2 ≤ data.length) :
    (applyHammingWindow Real.cos Real.pi data).length = data.length ∧
      (∀ i : Nat, i < data.length →
        (applyHammingWindow Real.cos Real.pi data)[i]? = data[i]?.map fun x =>
          x * (0.54 - 0.46 * Real.cos (2 * Real.pi * (i : ℝ) / ((data.length : ℝ) - 1)))) ∧
      (applyHammingWindow Real.cos Real.pi data)[0]? = data[0]?.map (fun x => x * (0.08 : ℝ)) ∧
      (applyHammingWindow Real.cos Real.pi data)[data.length - 1]? =
        data[data.length - 1]?.map (fun x => x * (0.08 : ℝ)) ∧
      (data.length % 2 = 1 →
        (applyHammingWindow Real.cos Real.pi data)[(data.length - 1) / 2]? =
          data[(data.length - 1) / 2]?.map (fun x => x * (1.0 : ℝ))) := by
  have hlen : (((data.length : Int) - 1 : Int) : ℝ) = (data.length : ℝ) - 1 := by push_cast; ring
  have hne : (data.length : ℝ) - 1 ≠ 0 := by
    have : (2 : ℝ) ≤ data.length := by exact_mod_cast hN
    linarith
  have hget : ∀ i : Nat, (applyHammingWindow Real.cos Real.pi data)[i]? = data[i]?.map fun x =>
      x * (0.54 - 0.46 * Real.cos (2 * Real.pi * (i : ℝ) / ((data.length : ℝ) - 1))) := by
    intro i
    rw [applyHammingWindow_getElem_opt, hlen]
    simp
  refine ⟨applyHammingWindow_length _ _ _, fun i _ => hget i, ?_, ?_, ?_⟩
  · rw [hget 0]
    congr 1
    funext x
    norm_num
  · rw [hget (data.length - 1)]
    congr 1
    funext x
    have hcast : ((data.length - 1 : Nat) : ℝ) = (data.length : ℝ) - 1 := by
      rw [Nat.cast_sub (by omega)]; simp
    rw [hcast, mul_div_assoc, div_self hne, mul_one, Real.cos_two_pi]
    norm_num
  · intro hodd
    rw [hget ((data.length - 1) / 2)]
    congr 1
    funext x
    have hcast : (((data.length - 1) / 2 : Nat) : ℝ) = ((data.length : ℝ) - 1) / 2 := by
      have h2 : (data.length - 1) / 2 * 2 = data.length - 1 := by omega
      have h3 := congrArg (Nat.cast : Nat → ℝ) h2
      rw [Nat.cast_mul, Nat.cast_sub (by omega)] at h3
      push_cast at h3
      linarith
    have harg : 2 * Real.pi * (((data.length : ℝ) - 1) / 2) / ((data.length : ℝ) - 1) = Real.pi := by
      field_simp
      ring
    rw [hcast, harg, Real.cos_pi]
    norm_num

/-- Witness for C6 on the three-sample vector `[1, 2, 3]`. -/
theorem applyHammingWindow_spec_witness :
    (applyHammingWindow Real.cos Real.pi [1, 2, 3]).length = 3 ∧
      (applyHammingWindow Real.cos Real.pi [1, 2, 3])[0]? = some (1 * (0.08 : ℝ)) ∧
      (applyHammingWindow Real.cos Real.pi [1, 2, 3])[1]? = some (2 * (1.0 : ℝ)) ∧
      (applyHammingWindow Real.cos Real.pi [1, 2, 3])[2]? = some (3 * (0.08 : ℝ)) := by
  obtain ⟨h1, -, h3, h4, h5⟩ := applyHammingWindow_spec [1, 2, 3] (by simp)
  exact ⟨h1, h3, h5 (by simp), h4⟩

/-! ## Cosine sums -/

theorem two_sin_mul_sum_cos (α : ℝ) (N : Nat) :
    2 * Real.sin (α / 2) * ∑ n in Finset.range N, Real.cos ((n : ℝ) * α) =
      Real.sin (((N : ℝ) - 1 / 2) * α) + Real.sin (α / 2) := by
  induction N with
  | zero =>
    simp only [Finset.range_zero, Finset.sum_empty, mul_zero, Nat.cast_zero]
    have : ((0 : ℝ) - 1 / 2) * α = -(α / 2) := by ring
    rw [this, Real.sin_neg]
    ring
  | succ N ih =>
    rw [Finset.sum_range_succ, mul_add, ih]
    have h1 : ((N : ℝ) - 1 / 2) * α = (N : ℝ) * α - α / 2 := by ring
    have h2 : (((N + 1 : Nat) : ℝ) - 1 / 2) * α = (N : ℝ) * α + α / 2 := by push_cast; ring
    rw [h1, h2, Real.sin_sub, Real.sin_add]
    ring

theorem sum_cos_eq_zero (α : ℝ) (N : Nat) (hsin : Real.sin (α / 2) ≠ 0)
    (hper : Real.sin (((N : ℝ) - 1 / 2) * α) = -Real.sin (α / 2)) :
    ∑ n in Finset.range N, Real.cos ((n : ℝ) * α) = 0 := by
  have h := two_sin_mul_sum_cos α N
  rw [hper, neg_add_cancel] at h
  rcases mul_eq_zero.mp h with h | h
  · rcases mul_eq_zero.mp h with h | h
    · norm_num at h
    · exact absurd h hsin
  · exact h

theorem sum_cos_eq_one (α : ℝ) (N : Nat) (hsin : Real.sin (α / 2) ≠ 0)
    (hper : Real.sin (((N : ℝ) - 1 / 2) * α) = Real.sin (α / 2)) :
    ∑ n in Finset.range N, Real.cos ((n : ℝ) * α) = 1 := by
  have h := two_sin_mul_sum_cos α N
  rw [hper] at h
  have h2 : 2 * Real.sin (α / 2) ≠ 0 := mul_ne_zero two_ne_zero hsin
  apply mul_left_cancel₀ h2
  rw [h]
  ring

theorem abs_sum_cos_le (α : ℝ) (N : Nat) (s : ℝ) (hs : 0 < s) (hsin : s ≤ Real.sin (α / 2)) :
    |∑ n in Finset.range N, Real.cos ((n : ℝ) * α) - 1 / 2| ≤ 1 / (2 * s) := by
  have h := two_sin_mul_sum_cos α N
  have hpos : 0 < Real.sin (α / 2) := lt_of_lt_of_le hs hsin
  have heq : ∑ n in Finset.range N, Real.cos ((n : ℝ) * α) - 1 / 2 =
      Real.sin (((N : ℝ) - 1 / 2) * α) / (2 * Real.sin (α / 2)) := by
    rw [eq_div_iff (by positivity)]
    linarith
  rw [heq, abs_div, abs_of_pos (by positivity : (0 : ℝ) < 2 * Real.sin (α / 2))]
  calc |Real.sin (((N : ℝ) - 1 / 2) * α)| / (2 * Real.sin (α / 2))
      ≤ 1 / (2 * Real.sin (α / 2)) := by
        apply div_le_div_of_nonneg_right (Real.abs_sin_le_one _) (by positivity)
    _ ≤ 1 / (2 * s) := by
        apply one_div_le_one_div_of_le (by positivity)
        linarith

/-! ## Orthogonality and the Parseval identity -/

theorem sin_pi_mul_ne_zero (d : Int) (N : Nat) (hd : d ≠ 0) (hlt : |d| < (N : Int)) :
    Real.sin (Real.pi * (d : ℝ) / (N : ℝ)) ≠ 0 := by
  intro h
  obtain ⟨j, hj⟩ := Real.sin_eq_zero_iff.mp h
  have hN : (0 : ℝ) < (N : ℝ) := by
    have : (0 : Int) < (N : Int) := lt_of_le_of_lt (abs_nonneg d) hlt
    exact_mod_cast this
  have hpi := Real.pi_pos
  have hjd : (j : ℝ) * (N : ℝ) = (d : ℝ) := by
    field_simp at hj
    nlinarith [hj]
  have hint : j * (N : Int) = d := by exact_mod_cast hjd
  have hj0 : j ≠ 0 := by
    rintro rfl
    simp at hint
    exact hd hint.symm
  have habs : (N : Int) ≤ |d| := by
    rw [← hint, abs_mul, Nat.abs_cast]
    have : 1 ≤ |j| := Int.one_le_abs hj0
    nlinarith [this]
  omega

theorem sum_cos_orthogonal (N : Nat) (n m : Nat) (hn : n < N) (hm : m < N) :
    ∑ k in Finset.range N, Real.cos ((k : ℝ) * (2 * Real.pi * ((n : ℝ) - (m : ℝ)) / (N : ℝ))) =
      if n = m then (N : ℝ) else 0 := by
  split_ifs with hnm
  · subst hnm
    simp
  · have hN : (N : ℝ) ≠ 0 := by
      have : 0 < N := by omega
      exact_mod_cast this.ne'
    have harg : 2 * Real.pi * ((n : ℝ) - (m : ℝ)) / (N : ℝ) / 2 =
        Real.pi * (((n : Int) - (m : Int) : Int) : ℝ) / (N : ℝ) := by
      push_cast
      field_simp
      ring
    apply sum_cos_eq_zero
    · rw [harg]
      apply sin_pi_mul_ne_zero
      · omega
      · rw [abs_lt]; constructor <;> omega
    · have hsplit : ((N : ℝ) - 1 / 2) * (2 * Real.pi * ((n : ℝ) - (m : ℝ)) / (N : ℝ)) =
          (((n : Int) - (m : Int) : Int) : ℝ) * (2 * Real.pi) -
            2 * Real.pi * ((n : ℝ) - (m : ℝ)) / (N : ℝ) / 2 := by
        push_cast
        field_simp
        ring
      rw [hsplit, Real.sin_int_mul_two_pi_sub]

theorem parseval_real (N : Nat) (y : Nat → ℝ) :
    ∑ k in Finset.range N,
        ((∑ n in Finset.range N, y n * Real.cos (2 * Real.pi * (k : ℝ) * (n : ℝ) / (N : ℝ))) ^ 2 +
          (∑ n in Finset.range N, y n * Real.sin (2 * Real.pi * (k : ℝ) * (n : ℝ) / (N : ℝ))) ^ 2) =
      (N : ℝ) * ∑ n in Finset.range N, y n ^ 2 := by
  have hk : ∀ k : Nat,
      (∑ n in Finset.range N, y n * Real.cos (2 * Real.pi * (k : ℝ) * (n : ℝ) / (N : ℝ))) ^ 2 +
          (∑ n in Finset.range N, y n * Real.sin (2 * Real.pi * (k : ℝ) * (n : ℝ) / (N : ℝ))) ^ 2 =
        ∑ n in Finset.range N, ∑ m in Finset.range N,
          y n * y m * Real.cos ((k : ℝ) * (2 * Real.pi * ((n : ℝ) - (m : ℝ)) / (N : ℝ))) := by
    intro k
    rw [sq, sq, Finset.sum_mul_sum, Finset.sum_mul_sum, ← Finset.sum_add_distrib]
    apply Finset.sum_congr rfl
    intro n _
    rw [← Finset.sum_add_distrib]
    apply Finset.sum_congr rfl
    intro m _
    have harg : (k : ℝ) * (2 * Real.pi * ((n : ℝ) - (m : ℝ)) / (N : ℝ)) =
        2 * Real.pi * (k : ℝ) * (n : ℝ) / (N : ℝ) - 2 * Real.pi * (k : ℝ) * (m : ℝ) / (N : ℝ) := by
      ring
    rw [harg, Real.cos_sub]
    ring
  simp only [hk]
  rw [Finset.sum_comm, Finset.mul_sum]
  apply Finset.sum_congr rfl
  intro n hn
  rw [Finset.sum_comm]
  simp only [← Finset.mul_sum]
  rw [Finset.sum_eq_single n]
  · rw [sum_cos_orthogonal N n n (Finset.mem_range.mp hn) (Finset.mem_range.mp hn), if_pos rfl]
    ring
  · intro m hm hmn
    rw [sum_cos_orthogonal N n m (Finset.mem_range.mp hn) (Finset.mem_range.mp hm),
      if_neg (Ne.symm hmn), mul_zero]
  · intro h
    exact absurd hn h

/-! ## The Hamming-windowed 10 Hz sinusoid -/

theorem windowedSine_mul_sin (n : Nat) :
    windowedSine Real.sin Real.cos Real.pi n * Real.sin (2 * Real.pi * 10 * (n : ℝ) / 256) =
      0.27 * (1 - Real.cos ((n : ℝ) * (2 * Real.pi * 20 / 256)))
        - 0.23 * Real.cos ((n : ℝ) * (2 * Real.pi / 255))
        + 0.115 * (Real.cos ((n : ℝ) * (2 * Real.pi * 20 / 256 + 2 * Real.pi / 255))
          + Real.cos ((n : ℝ) * (2 * Real.pi * 20 / 256 - 2 * Real.pi / 255))) := by
  have ha : (n : ℝ) * (2 * Real.pi * 20 / 256) = 2 * (2 * Real.pi * 10 * (n : ℝ) / 256) := by ring
  have hb : (n : ℝ) * (2 * Real.pi / 255) = 2 * Real.pi * (n : ℝ) / 255 := by ring
  have hp : (n : ℝ) * (2 * Real.pi * 20 / 256 + 2 * Real.pi / 255) =
      2 * (2 * Real.pi * 10 * (n : ℝ) / 256) + 2 * Real.pi * (n : ℝ) / 255 := by ring
  have hm : (n : ℝ) * (2 * Real.pi * 20 / 256 - 2 * Real.pi / 255) =
      2 * (2 * Real.pi * 10 * (n : ℝ) / 256) - 2 * Real.pi * (n : ℝ) / 255 := by ring
  rw [ha, hb, hp, hm, Real.cos_add, Real.cos_sub, Real.cos_two_mul, windowedSine, sineSample]
  have hsq := Real.sin_sq (2 * Real.pi * 10 * (n : ℝ) / 256)
  generalize Real.sin (2 * Real.pi * 10 * (n : ℝ) / 256) = sa at *
  generalize Real.cos (2 * Real.pi * 10 * (n : ℝ) / 256) = ca at *
  generalize Real.cos (2 * Real.pi * (n : ℝ) / 255) = cb at *
  linear_combination (0.54 - 0.46 * cb) * hsq

theorem windowedSine_sq (n : Nat) :
    windowedSine Real.sin Real.cos Real.pi n ^ 2 =
      0.1987 * (1 - Real.cos ((n : ℝ) * (2 * Real.pi * 20 / 256)))
        - 0.2484 * Real.cos ((n : ℝ) * (2 * Real.pi / 255))
        + 0.1242 * (Real.cos ((n : ℝ) * (2 * Real.pi * 20 / 256 + 2 * Real.pi / 255))
          + Real.cos ((n : ℝ) * (2 * Real.pi * 20 / 256 - 2 * Real.pi / 255)))
        + 0.0529 * Real.cos ((n : ℝ) * (2 * (2 * Real.pi / 255)))
        - 0.02645 * (Real.cos ((n : ℝ) * (2 * Real.pi * 20 / 256 + 2 * (2 * Real.pi / 255)))
          + Real.cos ((n : ℝ) * (2 * Real.pi * 20 / 256 - 2 * (2 * Real.pi / 255)))) := by
  have ha : (n : ℝ) * (2 * Real.pi * 20 / 256) = 2 * (2 * Real.pi * 10 * (n : ℝ) / 256) := by ring
  have hb : (n : ℝ) * (2 * Real.pi / 255) = 2 * Real.pi * (n : ℝ) / 255 := by ring
  have hb2 : (n : ℝ) * (2 * (2 * Real.pi / 255)) = 2 * (2 * Real.pi * (n : ℝ) / 255) := by ring
  have hp : (n : ℝ) * (2 * Real.pi * 20 / 256 + 2 * Real.pi / 255) =
      2 * (2 * Real.pi * 10 * (n : ℝ) / 256) + 2 * Real.pi * (n : ℝ) / 255 := by ring
  have hm : (n : ℝ) * (2 * Real.pi * 20 / 256 - 2 * Real.pi / 255) =
      2 * (2 * Real.pi * 10 * (n : ℝ) / 256) - 2 * Real.pi * (n : ℝ) / 255 := by ring
  have hp2 : (n : ℝ) * (2 * Real.pi * 20 / 256 + 2 * (2 * Real.pi / 255)) =
      2 * (2 * Real.pi * 10 * (n : ℝ) / 256) + 2 * (2 * Real.pi * (n : ℝ) / 255) := by ring
  have hm2 : (n : ℝ) * (2 * Real.pi * 20 / 256 - 2 * (2 * Real.pi / 255)) =
      2 * (2 * Real.pi * 10 * (n : ℝ) / 256) - 2 * (2 * Real.pi * (n : ℝ) / 255) := by ring
  rw [ha, hb, hb2, hp, hm, hp2, hm2]
  simp only [Real.cos_add, Real.cos_sub, Real.cos_two_mul, Real.sin_two_mul, windowedSine,
    sineSample]
  have hsq := Real.sin_sq (2 * Real.pi * 10 * (n : ℝ) / 256)
  generalize Real.sin (2 * Real.pi * 10 * (n : ℝ) / 256) = sa at *
  generalize Real.cos (2 * Real.pi * 10 * (n : ℝ) / 256) = ca at *
  generalize Real.cos (2 * Real.pi * (n : ℝ) / 255) = cb at *
  linear_combination (0.54 - 0.46 * cb) ^ 2 * hsq

theorem sin_lower_bound (x : ℝ) (hlo : 0.22 ≤ x) (hhi : x ≤ 1.5) : 0.217 ≤ Real.sin x := by
  have hpi := Real.pi_gt_three
  have h1 : Real.sin 0.22 ≤ Real.sin x :=
    Real.sin_le_sin_of_le_of_le_pi_div_two (by linarith) (by linarith) hlo
  have h2 : (0.22 : ℝ) - 0.22 ^ 3 / 4 < Real.sin 0.22 :=
    Real.sin_gt_sub_cube (by norm_num) (by norm_num)
  have h3 : (0.217 : ℝ) ≤ 0.22 - 0.22 ^ 3 / 4 := by norm_num
  linarith

theorem cosSum_twenty : cosSum Real.cos (2 * Real.pi * 20 / 256) = 0 := by
  apply sum_cos_eq_zero
  · have h := sin_pi_mul_ne_zero 20 256 (by decide) (by decide)
    have harg : 2 * Real.pi * 20 / 256 / 2 = Real.pi * ((20 : Int) : ℝ) / ((256 : Nat) : ℝ) := by
      push_cast; ring
    rw [harg]
    exact h
  · have harg : (((256 : Nat) : ℝ) - 1 / 2) * (2 * Real.pi * 20 / 256) =
        ((20 : Nat) : ℝ) * (2 * Real.pi) - 2 * Real.pi * 20 / 256 / 2 := by
      push_cast; ring
    rw [harg, Real.sin_nat_mul_two_pi_sub]

theorem sin_pi_div_255_ne_zero (j : Nat) (hj : 0 < j) (hj2 : j ≤ 2) :
    Real.sin ((j : ℝ) * (2 * Real.pi / 255) / 2) ≠ 0 := by
  have hpi := Real.pi_pos
  have hpi4 := Real.pi_le_four
  have hj1 : (1 : ℝ) ≤ (j : ℝ) := by exact_mod_cast hj
  have hj2' : (j : ℝ) ≤ 2 := by exact_mod_cast hj2
  apply ne_of_gt
  apply Real.sin_pos_of_pos_of_lt_pi
  · positivity
  · have : (j : ℝ) * (2 * Real.pi / 255) / 2 = (j : ℝ) / 255 * Real.pi := by ring
    rw [this]
    have hlt : (j : ℝ) / 255 < 1 := by
      rw [div_lt_one (by norm_num)]
      linarith
    nlinarith

theorem cosSum_window (j : Nat) (hj : 0 < j) (hj2 : j ≤ 2) :
    cosSum Real.cos ((j : ℝ) * (2 * Real.pi / 255)) = 1 := by
  apply sum_cos_eq_one
  · exact sin_pi_div_255_ne_zero j hj hj2
  · have harg : (((256 : Nat) : ℝ) - 1 / 2) * ((j : ℝ) * (2 * Real.pi / 255)) =
        (j : ℝ) * (2 * Real.pi / 255) / 2 + (j : ℝ) * (2 * Real.pi) := by
      push_cast; ring
    rw [harg, Real.sin_add_nat_mul_two_pi]

theorem cosSum_side (j : ℝ) (hlo : -2 ≤ j) (hhi : j ≤ 2) :
    |cosSum Real.cos (2 * Real.pi * 20 / 256 + j * (2 * Real.pi / 255)) - 1 / 2| ≤ 2.31 := by
  have hpi := Real.pi_gt_d6
  have hpi' := Real.pi_lt_d6
  have hb : (1 : ℝ) / (2 * 0.217) ≤ 2.31 := by norm_num
  refine le_trans (abs_sum_cos_le _ 256 0.217 (by norm_num) ?_) hb
  apply sin_lower_bound
  · have : (2 * Real.pi * 20 / 256 + j * (2 * Real.pi / 255)) / 2 =
        Real.pi * (20 / 256 + j / 255) := by ring
    rw [this]
    have hc : (0.0702 : ℝ) ≤ 20 / 256 + j / 255 := by
      have : (-2 : ℝ) / 255 ≤ j / 255 := by
        apply div_le_div_of_nonneg_right hlo (by norm_num)
      norm_num at this ⊢
      linarith
    nlinarith
  · have : (2 * Real.pi * 20 / 256 + j * (2 * Real.pi / 255)) / 2 =
        Real.pi * (20 / 256 + j / 255) := by ring
    rw [this]
    have hc : 20 / 256 + j / 255 ≤ (0.09 : ℝ) := by
      have : j / 255 ≤ (2 : ℝ) / 255 := by
        apply div_le_div_of_nonneg_right hhi (by norm_num)
      norm_num at this ⊢
      linarith
    have hc0 : (0 : ℝ) ≤ 20 / 256 + j / 255 := by
      have : (-2 : ℝ) / 255 ≤ j / 255 := by
        apply div_le_div_of_nonneg_right hlo (by norm_num)
      norm_num at this ⊢
      linarith
    nlinarith

theorem sum_windowedSine_mul_sin :
    ∑ n in Finset.range 256,
        windowedSine Real.sin Real.cos Real.pi n * Real.sin (2 * Real.pi * 10 * (n : ℝ) / 256) =
      68.89 + 0.115 * (cosSum Real.cos (2 * Real.pi * 20 / 256 + 1 * (2 * Real.pi / 255))
        + cosSum Real.cos (2 * Real.pi * 20 / 256 + (-1) * (2 * Real.pi / 255))) := by
  have h20 := cosSum_twenty
  have h1 := cosSum_window 1 (by decide) (by decide)
  simp only [cosSum] at h20 h1 ⊢
  simp only [windowedSine_mul_sin, Finset.sum_add_distrib, Finset.sum_sub_distrib,
    ← Finset.mul_sum, Finset.sum_const, Finset.card_range, nsmul_eq_mul]
  have e1 : ∀ n : Nat, Real.cos ((n : ℝ) * (2 * Real.pi / 255)) =
      Real.cos ((n : ℝ) * (((1 : Nat) : ℝ) * (2 * Real.pi / 255))) := by
    intro n; congr 1; push_cast; ring
  have e2 : ∀ n : Nat, Real.cos ((n : ℝ) * (2 * Real.pi * 20 / 256 + 2 * Real.pi / 255)) =
      Real.cos ((n : ℝ) * (2 * Real.pi * 20 / 256 + 1 * (2 * Real.pi / 255))) := by
    intro n; congr 1; ring
  have e3 : ∀ n : Nat, Real.cos ((n : ℝ) * (2 * Real.pi * 20 / 256 - 2 * Real.pi / 255)) =
      Real.cos ((n : ℝ) * (2 * Real.pi * 20 / 256 + (-1) * (2 * Real.pi / 255))) := by
    intro n; congr 1; ring
  simp only [e1, e2, e3, h20, h1]
  norm_num

theorem sum_windowedSine_sq :
    ∑ n in Finset.range 256, windowedSine Real.sin Real.cos Real.pi n ^ 2 =
      50.6717 + 0.1242 * (cosSum Real.cos (2 * Real.pi * 20 / 256 + 1 * (2 * Real.pi / 255))
          + cosSum Real.cos (2 * Real.pi * 20 / 256 + (-1) * (2 * Real.pi / 255)))
        - 0.02645 * (cosSum Real.cos (2 * Real.pi * 20 / 256 + 2 * (2 * Real.pi / 255))
          + cosSum Real.cos (2 * Real.pi * 20 / 256 + (-2) * (2 * Real.pi / 255))) := by
  have h20 := cosSum_twenty
  have h1 := cosSum_window 1 (by decide) (by decide)
  have h2 := cosSum_window 2 (by decide) (by decide)
  simp only [cosSum] at h20 h1 h2 ⊢
  simp only [windowedSine_sq, Finset.sum_add_distrib, Finset.sum_sub_distrib,
    ← Finset.mul_sum, Finset.sum_const, Finset.card_range, nsmul_eq_mul]
  have e1 : ∀ n : Nat, Real.cos ((n : ℝ) * (2 * Real.pi / 255)) =
      Real.cos ((n : ℝ) * (((1 : Nat) : ℝ) * (2 * Real.pi / 255))) := by
    intro n; congr 1; push_cast; ring
  have e1' : ∀ n : Nat, Real.cos ((n : ℝ) * (2 * (2 * Real.pi / 255))) =
      Real.cos ((n : ℝ) * (((2 : Nat) : ℝ) * (2 * Real.pi / 255))) := by
    intro n; congr 1
  have e2 : ∀ n : Nat, Real.cos ((n : ℝ) * (2 * Real.pi * 20 / 256 + 2 * Real.pi / 255)) =
      Real.cos ((n : ℝ) * (2 * Real.pi * 20 / 256 + 1 * (2 * Real.pi / 255))) := by
    intro n; congr 1; ring
  have e3 : ∀ n : Nat, Real.cos ((n : ℝ) * (2 * Real.pi * 20 / 256 - 2 * Real.pi / 255)) =
      Real.cos ((n : ℝ) * (2 * Real.pi * 20 / 256 + (-1) * (2 * Real.pi / 255))) := by
    intro n; congr 1; ring
  have e4 : ∀ n : Nat, Real.cos ((n : ℝ) * (2 * Real.pi * 20 / 256 - 2 * (2 * Real.pi / 255))) =
      Real.cos ((n : ℝ) * (2 * Real.pi * 20 / 256 + (-2) * (2 * Real.pi / 255))) := by
    intro n; congr 1; ring
  simp only [e1, e1', e2, e3, e4, h20, h1, h2]
  norm_num
  ring

theorem windowedSine_energy_lt :
    256 * ∑ n in Finset.range 256, windowedSine Real.sin Real.cos Real.pi n ^ 2 <
      3 * (∑ n in Finset.range 256,
        windowedSine Real.sin Real.cos Real.pi n * Real.sin (2 * Real.pi * 10 * (n : ℝ) / 256)) ^ 2 := by
  rw [sum_windowedSine_sq, sum_windowedSine_mul_sin]
  have hp1 := abs_le.mp (cosSum_side 1 (by norm_num) (by norm_num))
  have hm1 := abs_le.mp (cosSum_side (-1) (by norm_num) (by norm_num))
  have hp2 := abs_le.mp (cosSum_side 2 (by norm_num) (by norm_num))
  have hm2 := abs_le.mp (cosSum_side (-2) (by norm_num) (by norm_num))
  generalize cosSum Real.cos (2 * Real.pi * 20 / 256 + 1 * (2 * Real.pi / 255)) = cp at *
  generalize cosSum Real.cos (2 * Real.pi * 20 / 256 + (-1) * (2 * Real.pi / 255)) = cm at *
  generalize cosSum Real.cos (2 * Real.pi * 20 / 256 + 2 * (2 * Real.pi / 255)) = dp at *
  generalize cosSum Real.cos (2 * Real.pi * 20 / 256 + (-2) * (2 * Real.pi / 255)) = dm at *
  have hM : (68.4 : ℝ) ≤ 68.89 + 0.115 * (cp + cm) := by linarith [hp1.1, hm1.1]
  have hE : 50.6717 + 0.1242 * (cp + cm) - 0.02645 * (dp + dm) ≤ (51.5 : ℝ) := by
    linarith [hp1.2, hm1.2, hp2.1, hm2.1]
  have hsq : (68.4 : ℝ) ^ 2 ≤ (68.89 + 0.115 * (cp + cm)) ^ 2 :=
    pow_le_pow_left₀ (by norm_num) hM 2
  have hnum : (256 : ℝ) * 51.5 < 3 * 68.4 ^ 2 := by norm_num
  linarith

/-! ## The spectrum of the windowed sinusoid -/

theorem binPower_of_getElem_opt {F C : Type} [LinearOrderedField F] (Abs : C → F)
    (spectrum : List C) (k : Nat) (z : C) (h : spectrum[k]? = some z) :
    binPower Abs spectrum k = Abs z ^ 2 := by
  obtain ⟨hk, hz⟩ := List.getElem?_eq_some_iff.mp h
  rw [binPower, dif_pos hk]
  simp [List.get_eq_getElem, hz]

theorem dft_getElem_opt {F C : Type} [CommSemiring C] (ofReal : F → C) (root : Nat → C)
    (xs : List F) (g : Nat → F) (hg : ∀ n (h : n < xs.length), xs.get ⟨n, h⟩ = g n)
    (k : Nat) (hk : k < xs.length) :
    (dft ofReal root xs)[k]? =
      some (∑ n in Finset.range xs.length, ofReal (g n) * root xs.length ^ (k * n)) := by
  have hsum := Fin.sum_univ_eq_sum_range (fun n => ofReal (g n) * root xs.length ^ (k * n))
    xs.length
  rw [dft, List.getElem?_map, List.getElem?_range hk, Option.map_some', ← hsum]
  congr 1
  apply Finset.sum_congr rfl
  intro n _
  rw [hg n.val n.isLt]

theorem twiddle_re_im (N k n : Nat) :
    (Complex.exp (-(2 * (Real.pi : ℂ) * Complex.I) / (N : ℂ)) ^ (k * n)).re =
        Real.cos (2 * Real.pi * (k : ℝ) * (n : ℝ) / (N : ℝ)) ∧
      (Complex.exp (-(2 * (Real.pi : ℂ) * Complex.I) / (N : ℂ)) ^ (k * n)).im =
        -Real.sin (2 * Real.pi * (k : ℝ) * (n : ℝ) / (N : ℝ)) := by
  have harg : ((k * n : Nat) : ℂ) * (-(2 * (Real.pi : ℂ) * Complex.I) / (N : ℂ)) =
      ((-(2 * Real.pi * (k : ℝ) * (n : ℝ) / (N : ℝ)) : ℝ) : ℂ) * Complex.I := by
    push_cast
    ring
  rw [← Complex.exp_nat_mul, harg, Complex.exp_ofReal_mul_I_re, Complex.exp_ofReal_mul_I_im,
    Real.cos_neg, Real.sin_neg]
  exact ⟨rfl, rfl⟩

theorem abs_sq_dft_bin (N : Nat) (y : Nat → ℝ) (k : Nat) :
    Complex.abs (∑ n in Finset.range N,
        ((y n : ℝ) : ℂ) * Complex.exp (-(2 * (Real.pi : ℂ) * Complex.I) / (N : ℂ)) ^ (k * n)) ^ 2 =
      dftPower Real.sin Real.cos Real.pi N y k := by
  rw [Complex.sq_abs, Complex.normSq_apply, Complex.re_sum, Complex.im_sum, dftPower]
  simp only [Complex.re_ofReal_mul, Complex.im_ofReal_mul, (twiddle_re_im N k _).1,
    (twiddle_re_im N k _).2, mul_neg, Finset.sum_neg_distrib]
  ring

theorem dftPower_nonneg (N : Nat) (y : Nat → ℝ) (k : Nat) :
    0 ≤ dftPower Real.sin Real.cos Real.pi N y k := by
  rw [dftPower]
  positivity

theorem dftPower_mirror (y : Nat → ℝ) :
    dftPower Real.sin Real.cos Real.pi 256 y 246 = dftPower Real.sin Real.cos Real.pi 256 y 10 := by
  have hc : ∀ n : Nat, Real.cos (2 * Real.pi * ((246 : Nat) : ℝ) * (n : ℝ) / ((256 : Nat) : ℝ)) =
      Real.cos (2 * Real.pi * ((10 : Nat) : ℝ) * (n : ℝ) / ((256 : Nat) : ℝ)) := by
    intro n
    have : 2 * Real.pi * ((246 : Nat) : ℝ) * (n : ℝ) / ((256 : Nat) : ℝ) =
        (n : ℝ) * (2 * Real.pi) - 2 * Real.pi * ((10 : Nat) : ℝ) * (n : ℝ) / ((256 : Nat) : ℝ) := by
      push_cast; ring
    rw [this, Real.cos_nat_mul_two_pi_sub]
  have hs : ∀ n : Nat, Real.sin (2 * Real.pi * ((246 : Nat) : ℝ) * (n : ℝ) / ((256 : Nat) : ℝ)) =
      -Real.sin (2 * Real.pi * ((10 : Nat) : ℝ) * (n : ℝ) / ((256 : Nat) : ℝ)) := by
    intro n
    have : 2 * Real.pi * ((246 : Nat) : ℝ) * (n : ℝ) / ((256 : Nat) : ℝ) =
        (n : ℝ) * (2 * Real.pi) - 2 * Real.pi * ((10 : Nat) : ℝ) * (n : ℝ) / ((256 : Nat) : ℝ) := by
      push_cast; ring
    rw [this, Real.sin_nat_mul_two_pi_sub]
  simp only [dftPower, hc, hs, mul_neg, Finset.sum_neg_distrib, neg_sq]

theorem dftPower_ten_ge :
    (∑ n in Finset.range 256,
        windowedSine Real.sin Real.cos Real.pi n * Real.sin (2 * Real.pi * 10 * (n : ℝ) / 256)) ^ 2 ≤
      dftPower Real.sin Real.cos Real.pi 256 (windowedSine Real.sin Real.cos Real.pi) 10 := by
  rw [dftPower]
  have harg : ∀ n : Nat, 2 * Real.pi * ((10 : Nat) : ℝ) * (n : ℝ) / ((256 : Nat) : ℝ) =
      2 * Real.pi * 10 * (n : ℝ) / 256 := by
    intro n; push_cast; ring
  simp only [harg]
  nlinarith [sq_nonneg (∑ n in Finset.range 256,
    windowedSine Real.sin Real.cos Real.pi n * Real.cos (2 * Real.pi * 10 * (n : ℝ) / 256))]

theorem band_power_lt (S : Finset Nat) (hS : S ⊆ Finset.range 256) (h10 : 10 ∉ S)
    (h246 : 246 ∉ S) :
    ∑ k in S, dftPower Real.sin Real.cos Real.pi 256 (windowedSine Real.sin Real.cos Real.pi) k <
      dftPower Real.sin Real.cos Real.pi 256 (windowedSine Real.sin Real.cos Real.pi) 10 := by
  have hpars := parseval_real 256 (windowedSine Real.sin Real.cos Real.pi)
  have hsub : insert 10 (insert 246 S) ⊆ Finset.range 256 := by
    intro k hk
    rcases Finset.mem_insert.mp hk with rfl | hk
    · simp
    · rcases Finset.mem_insert.mp hk with rfl | hk
      · simp
      · exact hS hk
  have hle := Finset.sum_le_sum_of_subset_of_nonneg hsub
    (fun k _ _ => dftPower_nonneg 256 (windowedSine Real.sin Real.cos Real.pi) k)
  have h10' : 10 ∉ insert 246 S := by
    simp [h10]
  rw [Finset.sum_insert h10', Finset.sum_insert h246, dftPower_mirror] at hle
  have hge := dftPower_ten_ge
  have hen := windowedSine_energy_lt
  have hcast : ((256 : Nat) : ℝ) = 256 := by norm_num
  simp only [dftPower] at hpars hle hge ⊢
  rw [hcast] at hpars
  linarith

theorem sineWindow_length : (sineWindow Real.sin Real.pi).length = 256 := by
  simp [sineWindow]

theorem windowed_sineWindow_get (n : Nat)
    (h : n < (applyHammingWindow Real.cos Real.pi (sineWindow Real.sin Real.pi)).length) :
    (applyHammingWindow Real.cos Real.pi (sineWindow Real.sin Real.pi)).get ⟨n, h⟩ =
      windowedSine Real.sin Real.cos Real.pi n := by
  have hn : n < 256 := by
    rw [applyHammingWindow_length, sineWindow_length] at h
    exact h
  have hopt := applyHammingWindow_getElem_opt Real.cos Real.pi (sineWindow Real.sin Real.pi) n
  rw [List.getElem?_eq_getElem h] at hopt
  have hsrc : (sineWindow Real.sin Real.pi)[n]? = some (sineSample Real.sin Real.pi n) := by
    rw [sineWindow, List.getElem?_map, List.getElem?_range hn]
    rfl
  rw [hsrc, Option.map_some', sineWindow_length] at hopt
  rw [List.get_eq_getElem, Option.some.inj hopt, windowedSine]
  norm_num

theorem sineSpectrum_binPower (k : Nat) (hk : k < 256) :
    binPower Complex.abs
        (dft (fun x : ℝ => (x : ℂ))
          (fun N : Nat => Complex.exp (-(2 * (Real.pi : ℂ) * Complex.I) / (N : ℂ)))
          (applyHammingWindow Real.cos Real.pi (sineWindow Real.sin Real.pi))) k =
      dftPower Real.sin Real.cos Real.pi 256 (windowedSine Real.sin Real.cos Real.pi) k := by
  have hlen : (applyHammingWindow Real.cos Real.pi (sineWindow Real.sin Real.pi)).length = 256 := by
    rw [applyHammingWindow_length, sineWindow_length]
  have hget := dft_getElem_opt (fun x : ℝ => (x : ℂ))
    (fun N : Nat => Complex.exp (-(2 * (Real.pi : ℂ) * Complex.I) / (N : ℂ)))
    (applyHammingWindow Real.cos Real.pi (sineWindow Real.sin Real.pi))
    (windowedSine Real.sin Real.cos Real.pi) windowed_sineWindow_get k (by rw [hlen]; exact hk)
  rw [binPower_of_getElem_opt _ _ k _ hget, hlen]
  exact abs_sq_dft_bin 256 (windowedSine Real.sin Real.cos Real.pi) k

theorem sineSpectrum_length :
    (dft (fun x : ℝ => (x : ℂ))
      (fun N : Nat => Complex.exp (-(2 * (Real.pi : ℂ) * Complex.I) / (N : ℂ)))
      (applyHammingWindow Real.cos Real.pi (sineWindow Real.sin Real.pi))).length = 256 := by
  rw [dft, List.length_map, List.length_range, applyHammingWindow_length, sineWindow_length]

theorem sineSpectrum_sumPower (lowFreq highFreq : ℝ) (a b : Nat)
    (ha : freqBin lowFreq = (a : Int)) (hb : freqBin highFreq = (b : Int)) (hb256 : b ≤ 256) :
    sumPower Complex.abs
        (dft (fun x : ℝ => (x : ℂ))
          (fun N : Nat => Complex.exp (-(2 * (Real.pi : ℂ) * Complex.I) / (N : ℂ)))
          (applyHammingWindow Real.cos Real.pi (sineWindow Real.sin Real.pi))) lowFreq highFreq =
      some ((∑ k in Finset.Ico a b,
        dftPower Real.sin Real.cos Real.pi 256 (windowedSine Real.sin Real.cos Real.pi) k) / 256) := by
  rw [sumPower_eq_sum_Ico _ _ _ _ (by rw [ha]; exact Int.natCast_nonneg a), ha, hb,
    sineSpectrum_length, Int.toNat_natCast, Int.toNat_natCast, min_eq_left hb256]
  have hsum : ∀ k ∈ Finset.Ico a b,
      binPower Complex.abs
        (dft (fun x : ℝ => (x : ℂ))
          (fun N : Nat => Complex.exp (-(2 * (Real.pi : ℂ) * Complex.I) / (N : ℂ)))
          (applyHammingWindow Real.cos Real.pi (sineWindow Real.sin Real.pi))) k =
        dftPower Real.sin Real.cos Real.pi 256 (windowedSine Real.sin Real.cos Real.pi) k := by
    intro k hk
    exact sineSpectrum_binPower k (by have := (Finset.mem_Ico.mp hk).2; omega)
  rw [Finset.sum_congr rfl hsum]
  simp only [windowSize, Int.cast_ofNat]

/-! ## C9: the alpha band dominates for the 10 Hz window -/

/-- C9: for the 256-sample window `x[n] = sin(2*π*10*n/256)`, after
`applyHammingWindow` and the unnormalised discrete Fourier transform, the five
band sums are returned and the alpha value `powerToDb(sumPower(spectrum, 8, 13))`
is strictly greater than the delta, theta, beta and gamma values. -/
theorem sine_alpha_band_dominates :
    ∃ spectrum : List ℂ,
      spectrum = dft (fun x : ℝ => (x : ℂ))
        (fun N : Nat => Complex.exp (-(2 * (Real.pi : ℂ) * Complex.I) / (N : ℂ)))
        (applyHammingWindow Real.cos Real.pi (sineWindow Real.sin Real.pi)) ∧
      ∃ delta theta alpha beta gamma : ℝ,
        sumPower Complex.abs spectrum 0.5 4 = some delta ∧
        sumPower Complex.abs spectrum 4 8 = some theta ∧
        sumPower Complex.abs spectrum 8 13 = some alpha ∧
        sumPower Complex.abs spectrum 13 30 = some beta ∧
        sumPower Complex.abs spectrum 30 100 = some gamma ∧
        powerToDb (Real.logb 10) delta < powerToDb (Real.logb 10) alpha ∧
        powerToDb (Real.logb 10) theta < powerToDb (Real.logb 10) alpha ∧
        powerToDb (Real.logb 10) beta < powerToDb (Real.logb 10) alpha ∧
        powerToDb (Real.logb 10) gamma < powerToDb (Real.logb 10) alpha := by
  obtain ⟨hb0, hb4, hb8, hb13, hb30, hb100, -⟩ := freqBin_bands (F := ℝ)
  have hten : dftPower Real.sin Real.cos Real.pi 256 (windowedSine Real.sin Real.cos Real.pi) 10 ≤
      ∑ k in Finset.Ico 8 13,
        dftPower Real.sin Real.cos Real.pi 256 (windowedSine Real.sin Real.cos Real.pi) k :=
    Finset.single_le_sum (f := fun k =>
      dftPower Real.sin Real.cos Real.pi 256 (windowedSine Real.sin Real.cos Real.pi) k)
      (fun k _ => dftPower_nonneg 256 _ k) (by simp : 10 ∈ Finset.Ico 8 13)
  have hband : ∀ a b : Nat, b ≤ 100 → (b ≤ 8 ∨ 13 ≤ a) →
      (∑ k in Finset.Ico a b,
          dftPower Real.sin Real.cos Real.pi 256 (windowedSine Real.sin Real.cos Real.pi) k) / 256 <
        (∑ k in Finset.Ico 8 13,
          dftPower Real.sin Real.cos Real.pi 256 (windowedSine Real.sin Real.cos Real.pi) k) / 256 := by
    intro a b hb hdisj
    have hlt := band_power_lt (Finset.Ico a b)
      (fun k hk => Finset.mem_range.mpr (by have := (Finset.mem_Ico.mp hk).2; omega))
      (fun hk => by have := Finset.mem_Ico.mp hk; omega)
      (fun hk => by have := Finset.mem_Ico.mp hk; omega)
    apply div_lt_div_of_pos_right (lt_of_lt_of_le hlt hten) (by norm_num)
  have hpos : 0 < (∑ k in Finset.Ico 8 13,
      dftPower Real.sin Real.cos Real.pi 256 (windowedSine Real.sin Real.cos Real.pi) k) / 256 :=
    lt_of_le_of_lt (div_nonneg (Finset.sum_nonneg (fun k _ => dftPower_nonneg 256 _ k))
      (by norm_num)) (hband 0 4 (by norm_num) (Or.inl (by norm_num)))
  refine ⟨_, rfl, _, _, _, _, _,
    sineSpectrum_sumPower 0.5 4 0 4 (by rw [hb0]; rfl) (by rw [hb4]; rfl) (by norm_num),
    sineSpectrum_sumPower 4 8 4 8 (by rw [hb4]; rfl) (by rw [hb8]; rfl) (by norm_num),
    sineSpectrum_sumPower 8 13 8 13 (by rw [hb8]; rfl) (by rw [hb13]; rfl) (by norm_num),
    sineSpectrum_sumPower 13 30 13 30 (by rw [hb13]; rfl) (by rw [hb30]; rfl) (by norm_num),
    sineSpectrum_sumPower 30 100 30 100 (by rw [hb30]; rfl) (by rw [hb100]; rfl) (by norm_num),
    powerToDb_lt_of_lt _ _ hpos (hband 0 4 (by norm_num) (Or.inl (by norm_num))),
    powerToDb_lt_of_lt _ _ hpos (hband 4 8 (by norm_num) (Or.inl (by norm_num))),
    powerToDb_lt_of_lt _ _ hpos (hband 13 30 (by norm_num) (Or.inr (by norm_num))),
    powerToDb_lt_of_lt _ _ hpos (hband 30 100 (by norm_num) (Or.inr (by norm_num)))⟩

end FftRawToHz
